import Mathlib

/-!
Verification development for the `mrdm` CLI (src/main.rs), a TODO-comment
scanner.  The definitions below are a shallow embedding of the Rust source:

* the compiled matching rule of `create_regex` (main.rs:227-238) is embedded
  as an executable matcher on `List Char`;
* the per-line scan/rewrite loop of `get_todos_from_one_file`
  (main.rs:126-225) as `processLine` / `scanLinesGo` / `scanContent`;
* the shared id allocator (main.rs:172-188, seeded at main.rs:392 and
  main.rs:429-435) as `allocStep` / `allocRun` / `listSeed` / `doneSeed`;
* the persisted-store load (main.rs:382-390, 414-425) as `loadStore`;
* the `done`-workflow merge and interactive loops (main.rs:440-533) as
  `collectChain` / `processDeleted` / `processUndone`;
* the checklist renderer macro `write_todo_items` (main.rs:308-325) as
  `renderLine`;
* the temp-file-then-rename discipline of `get_todos_from_one_file`
  (main.rs:132-224) as the fault-injected `scanOneFileFS`.
-/

namespace Mrdm

/-! ## Character classes

`isWs` models the ASCII portion of the regex class `\s` (the configured
category words and all inputs of interest are ASCII).  `Char.isDigit`
coincides with the regex class `\d` on ASCII. -/

def isWs (c : Char) : Bool :=
  c == ' ' || c == '\t' || c == '\n' || c == '\x0b' || c == '\x0c' || c == '\r'

/-- Number of double-quote characters in a list, used for the
string-literal guard of the compiled rule: the capture
`(?<before>[^"]*("[^"]*"[^"]*)*)` matches exactly the prefixes containing an
even number of `"` characters. -/
def countQuotes (l : List Char) : Nat := l.count '"'

/-! ## Decimal rendering

`digitChar` / `natDigits` / `natToString` model Rust's
`format!("{}", n)` for a `usize`: standard decimal, no sign, no leading
zeros. -/

def digitChar (n : Nat) : Char :=
  match n with
  | 0 => '0' | 1 => '1' | 2 => '2' | 3 => '3' | 4 => '4'
  | 5 => '5' | 6 => '6' | 7 => '7' | 8 => '8' | _ => '9'

def natDigitsAux : Nat → Nat → List Char
  | 0, _ => []
  | fuel + 1, n =>
    if n < 10 then [digitChar n]
    else natDigitsAux fuel (n / 10) ++ [digitChar (n % 10)]

def natDigits (n : Nat) : List Char := natDigitsAux (n + 1) n

def natToString (n : Nat) : String := ⟨natDigits n⟩

/-! ## String helpers

Rust's `str::trim` and `str::to_lowercase` (used on the operator's input at
main.rs:492 and main.rs:524) restricted to ASCII, which covers the compared
answers `"d"` and `"u"`. -/

def rustTrim (s : List Char) : List Char :=
  ((s.dropWhile isWs).reverse.dropWhile isWs).reverse

def rustToLowercase (s : List Char) : List Char := s.map Char.toLower

def trimString (s : String) : String := ⟨rustTrim s.data⟩

/-- The test `input.trim().to_lowercase() == ans` performed on the
operator's input lines (main.rs:492, 524). -/
def answerIs (input : String) (ans : List Char) : Bool :=
  rustToLowercase (rustTrim input.data) = ans

/-! ## The compiled matching rule

`create_regex` (main.rs:227-238) builds, for configured category words
`c₁,…,cₖ`, the anchored pattern

  `^(?<before>[^"]*("[^"]*"[^"]*)*)//\s*(?<category>c₁|…|cₖ)(\((?<id>\d+)\))?:\s*(?<title>.*)`

applied per line (`re.captures(line)`, main.rs:146).  The embedding below
implements the backtracking semantics of this pattern directly:

* the `before` capture matches exactly the prefixes with an even number of
  double quotes, and greedy backtracking tries candidate end positions in
  strictly decreasing order, so the match uses the largest such position
  whose tail matches the rest of the pattern (`matchLine`);
* `\s*` after `//` is greedy with backtracking (`matchAfterSlashes` tries
  the longest whitespace run first);
* the category alternation is tried left to right with full backtracking
  into the rest of the pattern (`matchCatAt`);
* the optional greedy group `(\(\d+\))?` is tried with the group first and
  skipped on failure; `\d+` is forced to the maximal digit run because the
  following `\)` cannot match a digit (`matchIdColonTitle`);
* `\s*` before the title is greedy and `.*` always succeeds, so the title
  is the remainder after the maximal whitespace run.  The program only ever
  matches single lines produced by `str::lines`, which contain no `'\n'`,
  so `.*` reaches the end of the haystack. -/

structure Caps where
  before : List Char
  category : List Char
  id : Option (List Char)
  title : List Char
deriving Repr, DecidableEq

/-- Semantics of `(\((?<id>\d+)\))?:\s*(?<title>.*)` at the position just
after the category word. -/
def matchIdColonTitle (cs : List Char) : Option (Option (List Char) × List Char) :=
  match cs with
  | '(' :: rest =>
    if (rest.takeWhile Char.isDigit).isEmpty then none
    else
      match rest.drop (rest.takeWhile Char.isDigit).length with
      | ')' :: ':' :: rest3 =>
        some (some (rest.takeWhile Char.isDigit), rest3.dropWhile isWs)
      | _ => none
  | ':' :: rest3 => some (none, rest3.dropWhile isWs)
  | _ => none

/-- Semantics of the alternation `(?<category>c₁|…|cₖ)` followed by the rest
of the pattern: categories are tried in order, with backtracking into
`matchIdColonTitle`. -/
def matchCatAt (cats : List (List Char)) (rest : List Char) :
    Option (List Char × Option (List Char) × List Char) :=
  cats.findSome? fun c =>
    if c.isPrefixOf rest then
      (matchIdColonTitle (rest.drop c.length)).map fun r => (c, r.1, r.2)
    else none

/-- Semantics of the greedy `\s*` after `//`: the longest whitespace run is
tried first, backing off one character at a time. -/
def matchAfterSlashes (cats : List (List Char)) (rest : List Char) :
    Option (List Char × Option (List Char) × List Char) :=
  let m := (rest.takeWhile isWs).length
  ((List.range (m + 1)).reverse).findSome? fun k => matchCatAt cats (rest.drop k)

/-- Semantics of the literal `//` followed by the rest of the pattern. -/
def matchTail (cats : List (List Char)) : List Char →
    Option (List Char × Option (List Char) × List Char)
  | '/' :: '/' :: rest => matchAfterSlashes cats rest
  | _ => none

/-- Full match of the compiled rule against one line: the greedy `before`
capture tries end positions in strictly decreasing order; a position is
admissible when the consumed text has an even number of double quotes
(string-literal guard) and the tail matches the rest of the pattern. -/
def matchLine (cats : List (List Char)) (line : List Char) : Option Caps :=
  ((List.range (line.length + 1)).reverse).findSome? fun p =>
    if countQuotes (line.take p) % 2 = 0 then
      (matchTail cats (line.drop p)).map fun r =>
        ⟨line.take p, r.1, r.2.1, r.2.2⟩
    else none

/-! ## Data model -/

/-- One annotation occurrence, mirroring `struct TodoItem` (main.rs:88-95).
Paths are modelled by their displayed string. -/
structure TodoItem where
  title : String
  category : String
  path : String
  line : Nat
  done : Bool
deriving Repr, DecidableEq

/-- The persisted mapping id ↦ item (`TodoList.items`, a
`HashMap<String, TodoItem>`), modelled as an association list whose key
list is duplicate-free whenever it models an actual `HashMap`. -/
abbrev Store := List (String × TodoItem)

def keysNodup (m : Store) : Prop := (m.map Prod.fst).Nodup

instance (m : Store) : Decidable (keysNodup m) := by
  unfold keysNodup; infer_instance

def findVal? (m : Store) (k : String) : Option TodoItem :=
  match m with
  | [] => none
  | (k', v) :: rest => if k' = k then some v else findVal? rest k

/-- `HashMap::insert`: replace the binding when the key is present,
otherwise add it. -/
def insertKV (m : Store) (k : String) (v : TodoItem) : Store :=
  match m with
  | [] => [(k, v)]
  | (k', v') :: rest => if k' = k then (k, v) :: rest else (k', v') :: insertKV rest k v

/-- `HashMap::remove` (on a duplicate-free key list). -/
def eraseKey (m : Store) (k : String) : Store :=
  match m with
  | [] => []
  | (k', v') :: rest => if k' = k then rest else (k', v') :: eraseKey rest k

/-! ## Per-line scan

`processLine` embeds one iteration of the line loop of
`get_todos_from_one_file` (main.rs:145-213):

* no match: the line is copied unchanged (main.rs:206);
* match with an explicit id: the line is copied unchanged and an item is
  recorded under that id (main.rs:161-171, 190-199);
* match without an id: the next id is taken from the shared counter
  (main.rs:173-175), the line is rewritten via
  `re.replace(line, "$before// $category({id}): $title")` (main.rs:180-183),
  and an item is recorded under the new id.

Every recorded item carries the matched title and category, the current
path, the 1-based line number, and `done: false` (main.rs:192-198). -/
def processLine (cats : List (List Char)) (path : String) (lineIdx : Nat)
    (counter : Nat) (line : List Char) :
    List Char × Nat × Option (String × TodoItem) :=
  match matchLine cats line with
  | none => (line, counter, none)
  | some caps =>
    match caps.id with
    | some ids =>
      (line, counter,
        some (⟨ids⟩, { title := ⟨caps.title⟩, category := ⟨caps.category⟩,
                       path := path, line := lineIdx + 1, done := false }))
    | none =>
      let ids := natDigits counter
      (caps.before ++ '/' :: '/' :: ' ' ::
         (caps.category ++ '(' :: (ids ++ ')' :: ':' :: ' ' :: caps.title)),
       counter + 1,
       some (⟨ids⟩, { title := ⟨caps.title⟩, category := ⟨caps.category⟩,
                      path := path, line := lineIdx + 1, done := false }))

/-- The line loop of `get_todos_from_one_file` over the numbered lines of a
file: returns the rewritten lines, the final counter, and the recorded
items in program order. -/
def scanLinesGo (cats : List (List Char)) (path : String) :
    List (List Char) → Nat → Nat →
    List (List Char) × Nat × List (String × TodoItem)
  | [], _, c => ([], c, [])
  | l :: ls, i, c =>
    let r := processLine cats path i c l
    let rest := scanLinesGo cats path ls (i + 1) r.2.1
    (r.1 :: rest.1, rest.2.1,
      match r.2.2 with
      | some kv => kv :: rest.2.2
      | none => rest.2.2)

/-- Strip one trailing carriage return: the `\r`-stripping step of
`str::lines`, applied only to segments that were terminated by `'\n'`. -/
def chompCR (seg : List Char) : List Char :=
  if seg.getLast? = some '\r' then seg.dropLast else seg

def rustLinesAux : Nat → List Char → List (List Char)
  | 0, _ => []
  | fuel + 1, s =>
    if s = [] then []
    else if s.drop (s.takeWhile fun c => !(c == '\n')).length = [] then
      [s.takeWhile fun c => !(c == '\n')]
    else
      chompCR (s.takeWhile fun c => !(c == '\n')) ::
        rustLinesAux fuel ((s.drop (s.takeWhile fun c => !(c == '\n')).length).drop 1)

/-- Rust `str::lines` (used at main.rs:145): split at `'\n'`; a segment
terminated by `'\n'` has one trailing `'\r'` stripped; a final unterminated
segment is kept verbatim; a trailing `'\n'` produces no empty final line.
The fuel argument of `rustLinesAux` only drives the recursion: it starts
above the content length, which strictly bounds the number of splits, so
it never runs out. -/
def rustLines (s : List Char) : List (List Char) := rustLinesAux (s.length + 1) s

/-- Content written back by the line loop: `writeln!` appends `'\n'` to
every line (main.rs:163-184, 206). -/
def unlines (ls : List (List Char)) : List Char :=
  ls.foldr (fun l acc => l ++ '\n' :: acc) []

/-- One file's scan, at the level of its byte content: read, split into
lines, process each line, and join the rewritten lines with `'\n'`. -/
def scanContent (cats : List (List Char)) (path : String) (counter : Nat)
    (content : List Char) : List Char × Nat × List (String × TodoItem) :=
  let r := scanLinesGo cats path (rustLines content) 0 counter
  (unlines r.1, r.2.1, r.2.2)

/-! ## Shared id allocator

In `get_todos_from_one_file` the counter is read and incremented
(main.rs:173-174) strictly inside the critical section guarded by the
`todo_items` mutex (main.rs:159-204), so one allocation is atomic with
respect to the other scan threads: no interleaving can separate the read
from the increment. -/

/-- One atomic allocation: hand out the current counter value and
increment it (main.rs:173-175). -/
def allocStep (c : Nat) : Nat × Nat := (c, c + 1)

/-- An interleaved run of the per-file scan tasks, restricted to their
allocation events.  `pending` holds, per task, the number of unmarked
annotations it still has to stamp; the schedule picks which task performs
the next (atomic) allocation.  The run succeeds only if the schedule is a
complete interleaving: every step picks a task with work left and at the
end no task has pending allocations.  Returns the allocated ids in
schedule order together with the final counter. -/
def allocRun (pending : List Nat) (counter : Nat) (sched : List Nat) :
    Option (List Nat × Nat) :=
  match sched with
  | [] => if pending.all (· = 0) then some ([], counter) else none
  | t :: rest =>
    match pending[t]? with
    | some (n + 1) =>
      (allocRun (pending.set t n) (counter + 1) rest).map fun r =>
        ((allocStep counter).1 :: r.1, r.2)
    | _ => none

/-- Allocator seed of the `list` workflow (main.rs:392): the number of
items in the previously persisted store. -/
def listSeed (prevStore : Store) : Nat := prevStore.length

/-- Model of `id.parse::<usize>().unwrap_or(0)` (main.rs:432) on the ids
occurring in practice: a nonempty string of decimal digits parses to its
value, anything else (including the empty string) yields 0.  A leading `+`
sign and `usize` overflow are not modelled; neither occurs for ids the
program itself writes. -/
def parseUsize (s : String) : Nat :=
  if !s.data.isEmpty && s.data.all Char.isDigit then
    s.data.foldl (fun n c => n * 10 + (c.toNat - '0'.toNat)) 0
  else 0

/-- Allocator seed of the `done` workflow (main.rs:429-435): the maximum of
the parsed ids of the previous store, or 0 for an empty store. -/
def doneSeed (prevStore : Store) : Nat :=
  ((prevStore.map fun kv => parseUsize kv.1).max?).getD 0

/-! ## Persisted-store load

Both workflows open `.mrdm/data.json` for reading with `?` on the open
(main.rs:382-385 and 414-417), then deserialize with
`serde_json::from_reader(..).unwrap_or_else(|_| empty)` (main.rs:388-390,
423-425).  A missing file therefore aborts with an error, while malformed
content is recovered as an empty store. -/

inductive StoreOnDisk where
  | missing
  | malformed
  | valid (items : Store)
deriving Repr, DecidableEq

def loadStore : StoreOnDisk → Except String Store
  | .missing => .error "could not open file `.mrdm/data.json`"
  | .malformed => .ok []
  | .valid items => .ok items

/-! ## The `done` workflow merge and interactive loops -/

/-- `prev.items.into_iter().chain(curr).collect::<HashMap<_,_>>()`
(main.rs:459-463): insert all bindings in order, later bindings for the
same key overwriting earlier ones. -/
def collectChain (a b : Store) : Store :=
  (a ++ b).foldl (fun acc kv => insertKV acc kv.1 kv.2) []

/-- One iteration of the `deleted_keys` loop (main.rs:470-498): if the key
is present and the operator's input, trimmed and lowercased, is `"d"`, the
entry is marked done in place; otherwise the entry is removed. -/
def processDeleted (m : Store) (key : String) (input : String) : Store :=
  match findVal? m key with
  | none => m
  | some item =>
    if answerIs input ['d'] then insertKV m key { item with done := true }
    else eraseKey m key

/-- One iteration of the `undone_keys` loop (main.rs:500-533): the map size
is read first (main.rs:502); if the key is present and the input, trimmed
and lowercased, is `"u"`, the entry's `done` is set to `false` in place;
otherwise a clone of the entry (fields unchanged) is inserted under the id
`format!("{}", length)`. -/
def processUndone (m : Store) (key : String) (input : String) : Store :=
  let length := m.length
  match findVal? m key with
  | none => m
  | some item =>
    if answerIs input ['u'] then insertKV m key { item with done := false }
    else insertKV m (natToString length) item

/-! ## Checklist renderer -/

/-- One emitted line of the `write_todo_items` macro (main.rs:308-325):
`- [{}] {}({}): {} {}({}{}{})` with checkbox, category, id, trimmed title
and the location reference; `is_stdout` selects `path:line` versus
`[link](path#Lline)`. -/
def renderLine (isStd : Bool) (id : String) (it : TodoItem) : String :=
  "- [" ++ (if it.done then "x" else " ") ++ "] " ++ it.category ++ "(" ++
    id ++ "): " ++ trimString it.title ++ " " ++ (if isStd then "" else "[link]") ++
    "(" ++ it.path ++ (if isStd then ":" else "#L") ++ natToString it.line ++ ")"

/-- Lexicographic comparison of strings by character scalar value,
matching Rust's `Ord` on `String` (lexicographic by UTF-8 bytes, which
orders Unicode scalars identically). -/
def charListLe : List Char → List Char → Bool
  | [], _ => true
  | _ :: _, [] => false
  | a :: as, b :: bs =>
    if a.toNat < b.toNat then true
    else if b.toNat < a.toNat then false
    else charListLe as bs

theorem charListLe_total : ∀ (a b : List Char),
    charListLe a b = true ∨ charListLe b a = true := by
  intro a
  induction a with
  | nil => intro b; left; rfl
  | cons x xs ih =>
    intro b
    cases b with
    | nil => right; rfl
    | cons y ys =>
      by_cases h1 : x.toNat < y.toNat
      · left; simp [charListLe, h1]
      · by_cases h2 : y.toNat < x.toNat
        · right; simp [charListLe, h2]
        · rcases ih ys with h3 | h3
          · left; simp [charListLe, h1, h2, h3]
          · right; simp [charListLe, h1, h2, h3]

theorem charListLe_trans : ∀ {a b c : List Char},
    charListLe a b = true → charListLe b c = true → charListLe a c = true := by
  intro a
  induction a with
  | nil => intro b c _ _; rfl
  | cons x xs ih =>
    intro b c hab hbc
    cases b with
    | nil => simp [charListLe] at hab
    | cons y ys =>
      cases c with
      | nil => simp [charListLe] at hbc
      | cons z zs =>
        simp only [charListLe] at hab hbc ⊢
        have hab' : x.toNat < y.toNat ∨
            (x.toNat = y.toNat ∧ charListLe xs ys = true) := by
          by_cases h1 : x.toNat < y.toNat
          · left; exact h1
          · right
            rw [if_neg h1] at hab
            by_cases h2 : y.toNat < x.toNat
            · rw [if_pos h2] at hab; exact absurd hab (by simp)
            · rw [if_neg h2] at hab; exact ⟨by omega, hab⟩
        have hbc' : y.toNat < z.toNat ∨
            (y.toNat = z.toNat ∧ charListLe ys zs = true) := by
          by_cases h1 : y.toNat < z.toNat
          · left; exact h1
          · right
            rw [if_neg h1] at hbc
            by_cases h2 : z.toNat < y.toNat
            · rw [if_pos h2] at hbc; exact absurd hbc (by simp)
            · rw [if_neg h2] at hbc; exact ⟨by omega, hbc⟩
        rcases hab' with h1 | ⟨he1, hr1⟩ <;> rcases hbc' with h2 | ⟨he2, hr2⟩
        · rw [if_pos (by omega : x.toNat < z.toNat)]
        · rw [if_pos (by omega : x.toNat < z.toNat)]
        · rw [if_pos (by omega : x.toNat < z.toNat)]
        · rw [if_neg (by omega : ¬ x.toNat < z.toNat),
            if_neg (by omega : ¬ z.toNat < x.toNat)]
          exact ih hr1 hr2

/-- Key order of `final_todo.sort_by_key(|(id, _)| id.clone())`
(main.rs:537): lexicographic order on the id strings. -/
def entryLE (a b : String × TodoItem) : Prop := charListLe a.1.data b.1.data = true

instance : DecidableRel entryLE := fun a b => by
  unfold entryLE; infer_instance

instance : IsTotal (String × TodoItem) entryLE :=
  ⟨fun a b => charListLe_total a.1.data b.1.data⟩

instance : IsTrans (String × TodoItem) entryLE :=
  ⟨fun _ _ _ h1 h2 => charListLe_trans h1 h2⟩

def sortEntries (l : List (String × TodoItem)) : List (String × TodoItem) :=
  List.insertionSort entryLE l

/-- Lines emitted by the `done` workflow (main.rs:535-539): the merged map
is collected into a vector, sorted by id string, and rendered. -/
def doneWorkflowLines (entries : List (String × TodoItem)) (isStd : Bool) :
    List String :=
  (sortEntries entries).map fun kv => renderLine isStd kv.1 kv.2

/-- Lines emitted by the `list` workflow (main.rs:394-397): the aggregate
`HashMap` returned by `get_todos` is iterated directly, in the hash map's
unspecified iteration order; `order` stands for that iteration order and
may be any permutation of the map's bindings. -/
def listWorkflowLines (order : List (String × TodoItem)) (isStd : Bool) :
    List String :=
  order.map fun kv => renderLine isStd kv.1 kv.2

/-- Boolean check that a list of id strings is in ascending (lexicographic)
order. -/
def ascendingBool : List String → Bool
  | [] => true
  | [_] => true
  | a :: b :: t => charListLe a.data b.data && ascendingBool (b :: t)

/-! ## Filesystem effects of one file's scan

`get_todos_from_one_file` (main.rs:126-225): read the whole file
(main.rs:132), open the scratch file `path.with_extension("tmp")` with
create+truncate (main.rs:135-140), write every processed line to it, and
finally rename the scratch over the original (main.rs:216-222).  Failures
return early with `?`; no code path deletes the scratch file.  `FileSys`
tracks the original file's content and the scratch file's content (`none`
when absent); `writeBudget` is the number of line writes that succeed
before a simulated write failure (buffering of the `BufWriter` is elided:
the scratch holds the successfully written lines). -/

structure FileSys where
  orig : List Char
  tmp : Option (List Char)
deriving Repr, DecidableEq

/-- Result of one file's scan under fault injection: the resulting file
system and `some finalCounter` on success, `none` on error. -/
def scanOneFileFS (cats : List (List Char)) (path : String) (counter : Nat)
    (fs : FileSys) (readOk openOk : Bool) (writeBudget : Nat)
    (renameOk : Bool) : FileSys × Option Nat :=
  if !readOk then (fs, none)
  else if !openOk then (fs, none)
  else
    let r := scanLinesGo cats path (rustLines fs.orig) 0 counter
    if writeBudget < r.1.length then
      ({ orig := fs.orig, tmp := some (unlines (r.1.take writeBudget)) }, none)
    else if renameOk then
      ({ orig := unlines r.1, tmp := none }, some r.2.1)
    else
      ({ orig := fs.orig, tmp := some (unlines r.1) }, none)

/-! ## Helper lemmas: `findSome?` over a decreasing range -/

theorem findSome?_cons_eq {α β : Type} (f : α → Option β) (a : α) (l : List α) :
    (a :: l).findSome? f = match f a with | some b => some b | none => l.findSome? f := rfl

theorem revRange_succ (m : Nat) :
    (List.range (m + 1)).reverse = m :: (List.range m).reverse := by
  rw [List.range_succ, List.reverse_append, List.reverse_singleton,
    List.singleton_append]

theorem findSome?_revRange_of_max {β : Type} {f : Nat → Option β} {v : β} :
    ∀ {n p : Nat}, p < n → f p = some v → (∀ q, p < q → q < n → f q = none) →
    ((List.range n).reverse).findSome? f = some v := by
  intro n
  induction n with
  | zero => intro p hp; omega
  | succ m ih =>
    intro p hp hv hnone
    rw [revRange_succ, findSome?_cons_eq]
    by_cases hm : p = m
    · subst hm; rw [hv]
    · have h0 : f m = none := hnone m (by omega) (by omega)
      rw [h0]
      exact ih (by omega) hv fun q h1 h2 => hnone q h1 (by omega)

theorem findSome?_revRange_inv {β : Type} {f : Nat → Option β} {v : β} :
    ∀ {n : Nat}, ((List.range n).reverse).findSome? f = some v →
    ∃ p, p < n ∧ f p = some v ∧ ∀ q, p < q → q < n → f q = none := by
  intro n
  induction n with
  | zero => intro h; simp [List.findSome?] at h
  | succ m ih =>
    intro h
    rw [revRange_succ, findSome?_cons_eq] at h
    cases h0 : f m with
    | some w =>
      rw [h0] at h
      refine ⟨m, by omega, ?_, fun q h1 h2 => by omega⟩
      rw [h0]; exact h
    | none =>
      rw [h0] at h
      obtain ⟨p, hp, hv, hnone⟩ := ih h
      refine ⟨p, by omega, hv, fun q h1 h2 => ?_⟩
      by_cases hq : q = m
      · subst hq; exact h0
      · exact hnone q h1 (by omega)

theorem findSome?_eq_none_of_all {α β : Type} {l : List α} {f : α → Option β}
    (h : ∀ a ∈ l, f a = none) : l.findSome? f = none := by
  induction l with
  | nil => rfl
  | cons a t ih =>
    rw [findSome?_cons_eq, h a (List.mem_cons_self a t)]
    exact ih fun b hb => h b (List.mem_cons_of_mem a hb)

/-! ## Helper lemmas: the association-list model of `HashMap` -/

theorem findVal?_insertKV_self (m : Store) (k : String) (v : TodoItem) :
    findVal? (insertKV m k v) k = some v := by
  induction m with
  | nil => simp [insertKV, findVal?]
  | cons kv t ih =>
    by_cases h : kv.1 = k
    · simp [insertKV, h, findVal?]
    · simp [insertKV, h, findVal?, ih]

theorem findVal?_insertKV_ne (m : Store) (k k' : String) (v : TodoItem)
    (h : k ≠ k') : findVal? (insertKV m k v) k' = findVal? m k' := by
  induction m with
  | nil => simp [insertKV, findVal?, h]
  | cons kv t ih =>
    by_cases h1 : kv.1 = k
    · simp [insertKV, h1, findVal?, h]
    · simp only [insertKV, h1, if_false, findVal?]
      by_cases h2 : kv.1 = k'
      · simp [h2]
      · simp [h2, ih]

theorem findVal?_mem {m : Store} {k : String} {v : TodoItem}
    (h : findVal? m k = some v) : (k, v) ∈ m := by
  induction m with
  | nil => simp [findVal?] at h
  | cons kv t ih =>
    by_cases h1 : kv.1 = k
    · simp only [findVal?, h1, if_true, Option.some.injEq] at h
      subst h
      rw [← h1]
      exact List.mem_cons_self kv t
    · simp only [findVal?, h1, if_false] at h
      exact List.mem_cons_of_mem kv (ih h)

theorem findVal?_eq_find? (m : Store) (k : String) :
    findVal? m k = (m.find? fun kv => kv.1 == k).map Prod.snd := by
  induction m with
  | nil => rfl
  | cons kv t ih =>
    by_cases h : kv.1 = k
    · simp [findVal?, h, List.find?]
    · simp only [findVal?, h, if_false, List.find?]
      have hb : (kv.1 == k) = false := by simp [h]
      rw [hb]
      exact ih

theorem find?_eq_none_of_not_key {m : Store} {k : String}
    (h : k ∉ m.map Prod.fst) : (m.find? fun kv => kv.1 == k) = none := by
  rw [List.find?_eq_none]
  intro kv hkv hb
  exact h (List.mem_map.mpr ⟨kv, hkv, by simpa using hb⟩)

theorem find?_reverse_of_nodup {m : Store} {k : String} (h : keysNodup m) :
    (m.reverse.find? fun kv => kv.1 == k) = (m.find? fun kv => kv.1 == k) := by
  induction m with
  | nil => rfl
  | cons kv t ih =>
    have h1 : kv.1 ∉ t.map Prod.fst := by
      have := h
      simp only [keysNodup, List.map_cons, List.nodup_cons] at this
      exact this.1
    have h2 : keysNodup t := by
      have := h
      simp only [keysNodup, List.map_cons, List.nodup_cons] at this
      exact this.2
    rw [List.reverse_cons, List.find?_append]
    by_cases hk : kv.1 = k
    · have ht : (t.find? fun p => p.1 == k) = none :=
        find?_eq_none_of_not_key (by rw [← hk] at *; exact h1)
      have htr : (t.reverse.find? fun p => p.1 == k) = none := by
        rw [List.find?_eq_none]
        intro p hp hb
        rw [List.find?_eq_none] at ht
        exact ht p (List.mem_reverse.mp hp) hb
      simp [htr, ht, List.find?, hk]
    · have hb : (kv.1 == k) = false := by simp [hk]
      simp only [List.find?_cons, hb, ih h2]
      cases hfind : (t.find? fun p => p.1 == k) <;> simp [List.find?, hb, hfind]

theorem foldl_insertKV_find (l : Store) (acc : Store) (k : String) :
    findVal? (l.foldl (fun acc kv => insertKV acc kv.1 kv.2) acc) k =
      match l.reverse.find? (fun kv => kv.1 == k) with
      | some kv => some kv.2
      | none => findVal? acc k := by
  induction l generalizing acc with
  | nil => rfl
  | cons kv t ih =>
    simp only [List.foldl_cons, List.reverse_cons, List.find?_append]
    rw [ih]
    cases hfind : (t.reverse.find? fun p => p.1 == k) with
    | some w => simp
    | none =>
      simp only [Option.none_or]
      by_cases hk : kv.1 = k
      · have hb : (kv.1 == k) = true := by simp [hk]
        simp only [List.find?_cons, hb]
        rw [← hk, findVal?_insertKV_self]
      · have hb : (kv.1 == k) = false := by simp [hk]
        simp only [List.find?_cons, hb, List.find?_nil]
        exact findVal?_insertKV_ne acc kv.1 k kv.2 hk

theorem collectChain_find_right {a b : Store} {k : String}
    (hb : keysNodup b) (hk : k ∈ b.map Prod.fst) :
    findVal? (collectChain a b) k = findVal? b k := by
  unfold collectChain
  rw [foldl_insertKV_find, List.reverse_append, List.find?_append,
    find?_reverse_of_nodup hb]
  cases hfind : (b.find? fun kv => kv.1 == k) with
  | some w => simp [findVal?_eq_find?, hfind]
  | none =>
    exfalso
    obtain ⟨kv, hkv, hfst⟩ := List.mem_map.mp hk
    rw [List.find?_eq_none] at hfind
    exact hfind kv hkv (by simp [hfst])

theorem collectChain_find_left {a b : Store} {k : String}
    (ha : keysNodup a) (hk : k ∉ b.map Prod.fst) :
    findVal? (collectChain a b) k = findVal? a k := by
  unfold collectChain
  have hb : (b.reverse.find? fun kv => kv.1 == k) = none := by
    rw [List.find?_eq_none]
    intro kv hkv hbe
    exact hk (List.mem_map.mpr ⟨kv, List.mem_reverse.mp hkv, by simpa using hbe⟩)
  rw [foldl_insertKV_find, List.reverse_append, List.find?_append, hb,
    find?_reverse_of_nodup ha]
  cases hfind : (a.find? fun kv => kv.1 == k) <;>
    simp [findVal?_eq_find?, hfind]

theorem mem_keys_insertKV {t : Store} {k x : String} {v : TodoItem}
    (h : x ∈ (insertKV t k v).map Prod.fst) : x ∈ t.map Prod.fst ∨ x = k := by
  induction t with
  | nil =>
    simp only [insertKV, List.map_cons, List.map_nil, List.mem_cons,
      List.not_mem_nil, or_false] at h
    right; exact h
  | cons kv' t' ih =>
    by_cases h2 : kv'.1 = k
    · simp only [insertKV, h2, if_true, List.map_cons, List.mem_cons] at h
      rcases h with h3 | h3
      · right; exact h3
      · left; simp only [List.map_cons, List.mem_cons]; right; exact h3
    · simp only [insertKV, h2, if_false, List.map_cons, List.mem_cons] at h
      rcases h with h3 | h3
      · left; simp [h3]
      · rcases ih h3 with h4 | h4
        · left; simp only [List.map_cons, List.mem_cons]; right; exact h4
        · right; exact h4

theorem keysNodup_insertKV (m : Store) (k : String) (v : TodoItem)
    (h : keysNodup m) : keysNodup (insertKV m k v) := by
  induction m with
  | nil => simp [insertKV, keysNodup]
  | cons kv t ih =>
    simp only [keysNodup, List.map_cons, List.nodup_cons] at h
    by_cases h1 : kv.1 = k
    · simp only [insertKV, h1, if_true, keysNodup, List.map_cons, List.nodup_cons]
      rw [← h1]
      exact ⟨h.1, h.2⟩
    · simp only [insertKV, h1, if_false, keysNodup, List.map_cons, List.nodup_cons]
      refine ⟨?_, ih h.2⟩
      intro hmem
      rcases mem_keys_insertKV hmem with h3 | h3
      · exact h.1 h3
      · exact h1 h3

theorem keysNodup_foldl_insertKV (l : Store) (acc : Store) (h : keysNodup acc) :
    keysNodup (l.foldl (fun acc kv => insertKV acc kv.1 kv.2) acc) := by
  induction l generalizing acc with
  | nil => exact h
  | cons kv t ih => exact ih _ (keysNodup_insertKV acc kv.1 kv.2 h)

theorem keysNodup_collectChain (a b : Store) : keysNodup (collectChain a b) :=
  keysNodup_foldl_insertKV _ _ (by simp [keysNodup])

theorem findVal?_eraseKey_self (m : Store) (k : String) (h : keysNodup m) :
    findVal? (eraseKey m k) k = none := by
  induction m with
  | nil => rfl
  | cons kv t ih =>
    simp only [keysNodup, List.map_cons, List.nodup_cons] at h
    by_cases h1 : kv.1 = k
    · simp only [eraseKey, h1, if_true]
      rw [findVal?_eq_find?, find?_eq_none_of_not_key (by rw [← h1]; exact h.1)]
      rfl
    · simp only [eraseKey, h1, if_false, findVal?, h1, if_false]
      exact ih h.2

/-! ## Allocator run lemmas -/

theorem sum_set_of_getElem {pending : List Nat} :
    ∀ {t n m : Nat}, pending[t]? = some m → pending.sum + n = (pending.set t n).sum + m := by
  induction pending with
  | nil => intro t n m h; simp at h
  | cons x xs ih =>
    intro t n m h
    cases t with
    | zero =>
      simp only [List.getElem?_cons_zero, Option.some.injEq] at h
      subst h
      simp [List.set, List.sum_cons]
      omega
    | succ t' =>
      simp only [List.getElem?_cons_succ] at h
      have := ih (n := n) h
      simp only [List.set, List.sum_cons]
      omega

theorem allocRun_spec :
    ∀ (sched : List Nat) (pending : List Nat) (c : Nat) (ids : List Nat) (fin : Nat),
    allocRun pending c sched = some (ids, fin) →
    ids = List.range' c sched.length ∧ fin = c + sched.length ∧
      sched.length = pending.sum := by
  intro sched
  induction sched with
  | nil =>
    intro pending c ids fin h
    simp only [allocRun] at h
    by_cases hz : pending.all (· = 0)
    · rw [if_pos hz] at h
      have hsum : pending.sum = 0 := by
        rw [List.all_eq_true] at hz
        clear h
        induction pending with
        | nil => rfl
        | cons x xs ihp =>
          have hx : x = 0 := by simpa using hz x (List.mem_cons_self x xs)
          have hxs : xs.sum = 0 := ihp fun a ha => hz a (List.mem_cons_of_mem x ha)
          simp [List.sum_cons, hx, hxs]
      simp only [Option.some.injEq, Prod.mk.injEq] at h
      obtain ⟨h1, h2⟩ := h
      refine ⟨h1.symm, by simp [h2], by simp [hsum]⟩
    · rw [if_neg hz] at h; exact absurd h (by simp)
  | cons t rest ih =>
    intro pending c ids fin h
    simp only [allocRun] at h
    cases hp : pending[t]? with
    | none => rw [hp] at h; exact absurd h (by simp)
    | some m =>
      cases m with
      | zero => rw [hp] at h; exact absurd h (by simp)
      | succ n =>
        rw [hp] at h
        simp only [Option.map_eq_some'] at h
        obtain ⟨r, hr, heq⟩ := h
        obtain ⟨hids, hfin⟩ := Prod.mk.injEq .. ▸ heq
        obtain ⟨h1, h2, h3⟩ := ih (pending.set t n) (c + 1) r.1 r.2 (by
          cases r; exact hr)
        have hsum := sum_set_of_getElem (n := n) hp
        constructor
        · rw [← hids, h1]
          simp only [allocStep, List.length_cons]
          rfl
        · constructor
          · rw [← hfin, h2]; simp; omega
          · simp only [List.length_cons]; omega

/-! ## Claim C1

The spec claims the allocator seed makes the first newly allocated id equal
to one more than the highest numeric id of the previous store, and is never
derived from the item count.  In the source, the `done` workflow seeds the
counter with the highest parsed id itself (main.rs:429-435), so the first
newly allocated id collides with that highest id, and the `list` workflow
seeds it with `prev_todo.items.len()` (main.rs:392), i.e. the item count. -/

def sampleItem : TodoItem :=
  { title := "x", category := "TODO", path := "a", line := 3, done := false }

/-- Claim C1 is false on the code: for the previous store `{"5" ↦ item}`,
whose highest numeric id is 5, the `done` workflow's first newly allocated
id is 5 — not 6 as the claim requires — and the `list` workflow's seed is
the item count. -/
theorem C1_counterexample :
    (allocStep (doneSeed [("5", sampleItem)])).1 = 5 ∧
    (allocStep (doneSeed [("5", sampleItem)])).1 ≠ 6 ∧
    listSeed [("5", sampleItem), ("7", sampleItem)] = 2 := by
  refine ⟨?_, ?_, rfl⟩ <;> decide

/-- Amended claim C1: the `list` workflow seeds the allocator with the
count of items of the previous store; the `done` workflow seeds it with 0
for an empty store, and otherwise with the highest parsed numeric id
itself, so the first newly allocated id equals an id already present in
the store (ids that fail to parse counting as 0). -/
theorem C1_seed_behavior :
    (∀ prevStore : Store, listSeed prevStore = prevStore.length) ∧
    (allocStep (doneSeed ([] : Store))).1 = 0 ∧
    (∀ prevStore : Store, prevStore ≠ [] →
      ∃ kv, kv ∈ prevStore ∧ parseUsize kv.1 = (allocStep (doneSeed prevStore)).1) := by
  refine ⟨fun _ => rfl, rfl, fun prevStore hne => ?_⟩
  have hmap : (prevStore.map fun kv => parseUsize kv.1) ≠ [] := by
    simpa using hne
  cases hmax : (prevStore.map fun kv => parseUsize kv.1).max? with
  | none =>
    exact absurd (List.max?_eq_none_iff.mp hmax) hmap
  | some m =>
    have hmem : m ∈ prevStore.map fun kv => parseUsize kv.1 :=
      List.max?_mem (fun a b => max_choice a b) hmax
    obtain ⟨kv, hkv, hval⟩ := List.mem_map.mp hmem
    refine ⟨kv, hkv, ?_⟩
    simp [allocStep, doneSeed, hmax, hval]

/-- Witness for the amended claim C1 at the concrete store `{"5" ↦ item}`:
its first newly allocated id is the parsed value of an id already present. -/
theorem C1_seed_behavior_witness :
    ∃ kv, kv ∈ [("5", sampleItem)] ∧
      parseUsize kv.1 = (allocStep (doneSeed [("5", sampleItem)])).1 :=
  C1_seed_behavior.2.2 [("5", sampleItem)] (by simp)

/-! ## Claim C2

Concurrent allocation: the counter read and increment (main.rs:173-174)
happen inside the critical section of the `todo_items` mutex
(main.rs:159-204), so each allocation is atomic; `allocRun` quantifies over
every complete interleaving (`sched`) of the per-file scan tasks'
allocation events. -/

/-- Claim C2: for every complete interleaving of the per-file scan tasks,
with M total unmarked annotations in `tasks`, the newly allocated ids are
exactly `{seed, seed+1, …, seed+M-1}` and no id is handed out twice. -/
theorem C2_concurrent_alloc_ids (tasks : List Nat) (seed : Nat)
    (sched : List Nat) (ids : List Nat) (fin : Nat)
    (h : allocRun tasks seed sched = some (ids, fin)) :
    ids = List.range' seed tasks.sum ∧ ids.Nodup := by
  obtain ⟨h1, _h2, h3⟩ := allocRun_spec sched tasks seed ids fin h
  constructor
  · rw [h1, h3]
  · rw [h1]
    exact List.nodup_range' _ _

/-- Witness for claim C2: two files with two and one unmarked annotations,
interleaved first-second-first, allocate exactly `{5, 6, 7}` from seed 5. -/
theorem C2_concurrent_alloc_ids_witness :
    allocRun [2, 1] 5 [0, 1, 0] = some ([5, 6, 7], 8) ∧
    [5, 6, 7] = List.range' 5 ([2, 1] : List Nat).sum ∧
    ([5, 6, 7] : List Nat).Nodup := by
  refine ⟨by decide, ?_, ?_⟩
  · exact (C2_concurrent_alloc_ids [2, 1] 5 [0, 1, 0] [5, 6, 7] 8 (by decide)).1
  · exact (C2_concurrent_alloc_ids [2, 1] 5 [0, 1, 0] [5, 6, 7] 8 (by decide)).2

/-! ## Claim C4

`load` of the persisted store: malformed content is recovered as an empty
list (main.rs:388-390, 423-425), but a missing file makes the
`OpenOptions::open` call fail and the `?` operator raises the error to the
caller (main.rs:382-385, 414-417), aborting the invocation. -/

/-- Claim C4 is false on the code: loading a missing store file raises an
error to the caller instead of yielding an empty list. -/
theorem C4_counterexample :
    loadStore StoreOnDisk.missing =
      Except.error "could not open file `.mrdm/data.json`" := rfl

/-- Amended claim C4: malformed store content yields an empty item list and
valid content is returned as-is, with no error; a missing store file,
however, raises an error to the caller. -/
theorem C4_load_behavior :
    loadStore StoreOnDisk.malformed = Except.ok [] ∧
    (∀ items : Store, loadStore (StoreOnDisk.valid items) = Except.ok items) ∧
    (∀ l : Store, loadStore StoreOnDisk.missing ≠ Except.ok l) := by
  refine ⟨rfl, fun _ => rfl, fun l h => ?_⟩
  simp [loadStore] at h

/-! ## Claim C9 -/

/-- The configured category set `{TODO, FIXME}` of the regex unit test
(main.rs:574). -/
def catsTodoFixme : List (List Char) := ["TODO".toList, "FIXME".toList]

/-- Claim C9: with categories `{TODO, FIXME}`, `// FIXME(2): test` matches
with category `FIXME`, id 2, title `test`; `// TODO(6): test` matches with
category `TODO`, id 6, title `test`; and `testing("// TODO: test");` does
not match, because the only `//` in the line sits after an odd number of
double quotes, which the `before` capture of the compiled rule cannot
absorb. -/
theorem C9_regex_examples :
    matchLine catsTodoFixme "// FIXME(2): test".toList =
      some ⟨[], "FIXME".toList, some ['2'], "test".toList⟩ ∧
    matchLine catsTodoFixme "// TODO(6): test".toList =
      some ⟨[], "TODO".toList, some ['6'], "test".toList⟩ ∧
    matchLine catsTodoFixme "testing(\"// TODO: test\");".toList = none := by
  refine ⟨by decide, by decide, by decide⟩

/-! ## Claims C5, C3, C10: the `done` workflow loops -/

theorem mem_keys_findVal? {m : Store} {k : String}
    (h : k ∈ m.map Prod.fst) : ∃ v, findVal? m k = some v := by
  induction m with
  | nil => simp at h
  | cons kv t ih =>
    by_cases h1 : kv.1 = k
    · exact ⟨kv.2, by simp [findVal?, h1]⟩
    · simp only [List.map_cons, List.mem_cons] at h
      rcases h with h2 | h2
    <;> first
      | exact absurd h2.symm h1
      | exact (ih h2).imp fun v hv => by simp [findVal?, h1, hv]

/-- Claim C5 (confirmed): for an id that was not done in the previous store
and is absent from the current scan, the `deleted_keys` loop iteration
(main.rs:470-498) keeps the entry with `done = true` exactly when the
operator's input, trimmed and lowercased, is `"d"`, and removes the entry
entirely for any other input (including an empty line). -/
theorem C5_deleted_resolution (prevS curr : Store) (k input : String)
    (pv : TodoItem) (hnp : keysNodup prevS)
    (hprev : findVal? prevS k = some pv) (hpd : pv.done = false)
    (hcurr : k ∉ curr.map Prod.fst) :
    (answerIs input ['d'] = true →
      findVal? (processDeleted (collectChain prevS curr) k input) k =
        some { pv with done := true }) ∧
    (answerIs input ['d'] = false →
      findVal? (processDeleted (collectChain prevS curr) k input) k = none) := by
  have hm : findVal? (collectChain prevS curr) k = some pv :=
    (collectChain_find_left hnp hcurr).trans hprev
  constructor
  · intro hd
    simp only [processDeleted, hm, hd, if_true]
    exact findVal?_insertKV_self ..
  · intro hd
    simp only [processDeleted, hm, hd, Bool.false_eq_true, if_false]
    exact findVal?_eraseKey_self _ _ (keysNodup_collectChain _ _)

/-- Witness for claim C5: previous store `{"0" ↦ not-done item}`, current
scan empty; answering `"d"` keeps id 0 with `done = true`, answering with
an empty line removes it. -/
theorem C5_deleted_resolution_witness :
    findVal? (processDeleted (collectChain [("0", sampleItem)] []) "0" "d\n") "0" =
      some { sampleItem with done := true } ∧
    findVal? (processDeleted (collectChain [("0", sampleItem)] []) "0" "") "0" =
      none :=
  ⟨(C5_deleted_resolution [("0", sampleItem)] [] "0" "d\n" sampleItem
      (by decide) (by decide) (by decide) (by decide)).1 (by decide),
   (C5_deleted_resolution [("0", sampleItem)] [] "0" "" sampleItem
      (by decide) (by decide) (by decide) (by decide)).2 (by decide)⟩

/-- A previously-done entry and the fresher entry produced for the same id
by the current scan (the scan always records `done = false`). -/
def doneSample : TodoItem := { sampleItem with done := true }

def freshSample : TodoItem := { sampleItem with line := 5 }

/-- Claim C3 is false on the code: for a resurrected id and an operator
input other than `"u"`, the entry kept under that id has `done = false`
(it is the current scan's entry, which the loop at main.rs:500-533 never
marks done), not `done = true` as the claim states. -/
theorem C3_counterexample :
    ¬ ((findVal? (processUndone
          (collectChain [("0", doneSample)] [("0", freshSample)]) "0" "r")
          "0").map TodoItem.done = some true) := by decide

/-- Amended claim C3: for a resurrected id (done in the previous store and
found again by the scan), answering `"u"` keeps the same id with
`done = false`; any other input keeps the current scan's entry (which has
`done = false`) under that id unchanged, and inserts a duplicate entry with
the same fields under the id rendered from the size of the result map at
that point (which may collide with an existing id). -/
theorem C3_resurrected_resolution (prevS curr : Store) (k input : String)
    (pv it : TodoItem)
    (hprev : findVal? prevS k = some pv) (hpd : pv.done = true)
    (hnc : keysNodup curr) (hcurr : findVal? curr k = some it) :
    (answerIs input ['u'] = true →
      findVal? (processUndone (collectChain prevS curr) k input) k =
        some { it with done := false }) ∧
    (answerIs input ['u'] = false →
      findVal? (processUndone (collectChain prevS curr) k input) k = some it ∧
      findVal? (processUndone (collectChain prevS curr) k input)
        (natToString (collectChain prevS curr).length) = some it) := by
  have hk : k ∈ curr.map Prod.fst :=
    List.mem_map.mpr ⟨(k, it), findVal?_mem hcurr, rfl⟩
  have hm : findVal? (collectChain prevS curr) k = some it :=
    (collectChain_find_right hnc hk).trans hcurr
  constructor
  · intro hu
    simp only [processUndone, hm, hu, if_true]
    exact findVal?_insertKV_self ..
  · intro hu
    simp only [processUndone, hm, hu, Bool.false_eq_true, if_false]
    constructor
    · by_cases hcol : natToString (collectChain prevS curr).length = k
      · rw [hcol]
        exact findVal?_insertKV_self ..
      · rw [findVal?_insertKV_ne _ _ _ _ hcol]
        exact hm
    · exact findVal?_insertKV_self ..

/-- Witness for the amended claim C3: previous store `{"0" ↦ done item}`,
current scan re-finds id 0 (not done, fresher line).  Answering `"u"` keeps
id 0 with `done = false`; answering `"r"` keeps the current entry under id
0 and inserts a duplicate under the id rendered from the map size. -/
theorem C3_resurrected_resolution_witness :
    findVal? (processUndone
        (collectChain [("0", doneSample)] [("0", freshSample)]) "0" "u\n")
        "0" = some { freshSample with done := false } ∧
    (findVal? (processUndone
        (collectChain [("0", doneSample)] [("0", freshSample)]) "0" "r")
        "0" = some freshSample ∧
     findVal? (processUndone
        (collectChain [("0", doneSample)] [("0", freshSample)]) "0" "r")
        (natToString (collectChain [("0", doneSample)] [("0", freshSample)]).length) =
        some freshSample) :=
  ⟨(C3_resurrected_resolution [("0", doneSample)] [("0", freshSample)] "0" "u\n"
      doneSample freshSample (by decide) (by decide) (by decide) (by decide)).1
      (by decide),
   (C3_resurrected_resolution [("0", doneSample)] [("0", freshSample)] "0" "r"
      doneSample freshSample (by decide) (by decide) (by decide) (by decide)).2
      (by decide)⟩

theorem processLine_rec_done {cats : List (List Char)} {path : String}
    {i c : Nat} {l : List Char} {kv : String × TodoItem}
    (h : (processLine cats path i c l).2.2 = some kv) : kv.2.done = false := by
  unfold processLine at h
  split at h
  · simp at h
  · split at h
    · simp only [Option.some.injEq] at h
      rw [← h]
    · simp only [Option.some.injEq] at h
      rw [← h]

/-- Claim C10 (confirmed): every item recorded by the scan has
`done = false` (main.rs:192-198, both for explicit-id and freshly stamped
lines), and consequently every id present in the current scan enters the
`done`-workflow merge (main.rs:459-463) with `done = false` before any
operator prompting. -/
theorem C10_scan_records_not_done (cats : List (List Char)) (path : String)
    (ls : List (List Char)) (i c : Nat) (prevS curr : Store) (k : String) :
    (∀ r ∈ (scanLinesGo cats path ls i c).2.2, r.2.done = false) ∧
    ((∀ kv ∈ curr, kv.2.done = false) → keysNodup curr →
      k ∈ curr.map Prod.fst →
      (findVal? (collectChain prevS curr) k).map TodoItem.done = some false) := by
  constructor
  · induction ls generalizing i c with
    | nil => intro r hr; simp [scanLinesGo] at hr
    | cons l t ih =>
      intro r hr
      simp only [scanLinesGo] at hr
      cases hp : (processLine cats path i c l).2.2 with
      | some kv =>
        rw [hp] at hr
        rcases List.mem_cons.mp hr with h1 | h1
        · rw [h1]; exact processLine_rec_done hp
        · exact ih _ _ _ h1
      | none =>
        rw [hp] at hr
        exact ih _ _ _ hr
  · intro hall hnc hk
    obtain ⟨v, hv⟩ := mem_keys_findVal? hk
    rw [collectChain_find_right hnc hk, hv, Option.map_some']
    exact congrArg some (hall (k, v) (findVal?_mem hv))

/-- Witness for claim C10: the merge of a done previous entry with the
current scan's entry for the same id carries `done = false` into the merged
map. -/
theorem C10_scan_records_not_done_witness :
    (findVal? (collectChain [("0", doneSample)] [("0", freshSample)])
      "0").map TodoItem.done = some false :=
  (C10_scan_records_not_done catsTodoFixme "f" [] 0 0
      [("0", doneSample)] [("0", freshSample)] "0").2
    (by decide) (by decide) (by decide)

/-! ## Claim C7: filesystem safety of one file's scan -/

/-- Claim C7 is false on the code in one respect: after a simulated write
failure mid-rewrite, the scratch file is not discarded — no code path in
`get_todos_from_one_file` removes `path.with_extension("tmp")` on error —
it remains on disk holding the partial rewrite, while the original file is
left byte-identical. -/
theorem C7_counterexample :
    (scanOneFileFS catsTodoFixme "f" 0 ⟨"a\nb\n".toList, none⟩
        true true 1 true).2 = none ∧
    (scanOneFileFS catsTodoFixme "f" 0 ⟨"a\nb\n".toList, none⟩
        true true 1 true).1.tmp ≠ none ∧
    (scanOneFileFS catsTodoFixme "f" 0 ⟨"a\nb\n".toList, none⟩
        true true 1 true).1.orig = "a\nb\n".toList := by
  refine ⟨rfl, by decide, rfl⟩

/-- Amended claim C7: the original file is replaced, by renaming the
scratch over it, only after every line has been processed and written
successfully; on any read, open, write, or rename failure the original
file is left byte-identical to its pre-scan content (though a scratch file
may be left behind on disk). -/
theorem C7_scan_file_safety (cats : List (List Char)) (path : String)
    (counter : Nat) (fs : FileSys) (readOk openOk : Bool) (writeBudget : Nat)
    (renameOk : Bool) :
    ((scanOneFileFS cats path counter fs readOk openOk writeBudget renameOk).2 = none →
      (scanOneFileFS cats path counter fs readOk openOk writeBudget renameOk).1.orig =
        fs.orig) ∧
    (∀ c', (scanOneFileFS cats path counter fs readOk openOk writeBudget renameOk).2 =
        some c' →
      (scanOneFileFS cats path counter fs readOk openOk writeBudget renameOk).1.orig =
        unlines (scanLinesGo cats path (rustLines fs.orig) 0 counter).1 ∧
      (scanOneFileFS cats path counter fs readOk openOk writeBudget renameOk).1.tmp =
        none) := by
  unfold scanOneFileFS
  cases readOk with
  | false => simp
  | true =>
    cases openOk with
    | false => simp
    | true =>
      by_cases hw : writeBudget <
          (scanLinesGo cats path (rustLines fs.orig) 0 counter).1.length
      · simp [hw]
      · by_cases hrn : renameOk
        · simp [hw, hrn]
        · simp [hw, hrn]

/-- Witness for the amended claim C7: a failed read leaves the file
untouched; a fully successful scan replaces it with the rewritten content
and removes the scratch. -/
theorem C7_scan_file_safety_witness :
    (scanOneFileFS catsTodoFixme "f" 0 ⟨"a\n".toList, none⟩
        false true 5 true).1.orig = "a\n".toList ∧
    ((scanOneFileFS catsTodoFixme "f" 0 ⟨"a\n".toList, none⟩
        true true 5 true).1.orig =
      unlines (scanLinesGo catsTodoFixme "f" (rustLines "a\n".toList) 0 0).1 ∧
     (scanOneFileFS catsTodoFixme "f" 0 ⟨"a\n".toList, none⟩
        true true 5 true).1.tmp = none) :=
  ⟨(C7_scan_file_safety catsTodoFixme "f" 0 ⟨"a\n".toList, none⟩
      false true 5 true).1 (by decide),
   (C7_scan_file_safety catsTodoFixme "f" 0 ⟨"a\n".toList, none⟩
      true true 5 true).2 0 (by decide)⟩

/-! ## Claim C8: checklist rendering order -/

def itemA : TodoItem := { sampleItem with title := "a" }

def itemB : TodoItem := { sampleItem with title := "b" }

/-- Claim C8 is false on the code for the `list` workflow: the final
aggregate is collected back into a `HashMap` (main.rs:305) and rendered by
iterating that map directly (main.rs:397), so the emission order is the
hash map's unspecified iteration order.  The order below is a permutation
of the aggregate's bindings — hence a possible iteration order — and its
emitted id sequence `["1", "0"]` is not ascending. -/
theorem C8_counterexample :
    ([("1", itemB), ("0", itemA)] : List (String × TodoItem)).Perm
      [("0", itemA), ("1", itemB)] ∧
    listWorkflowLines [("1", itemB), ("0", itemA)] true =
      [renderLine true "1" itemB, renderLine true "0" itemA] ∧
    ascendingBool (([("1", itemB), ("0", itemA)] :
      List (String × TodoItem)).map Prod.fst) = false := by
  refine ⟨List.Perm.swap _ _ _, rfl, by decide⟩

theorem ascendingBool_of_pairwise :
    ∀ {l : List String},
    List.Pairwise (fun a b : String => charListLe a.data b.data = true) l →
    ascendingBool l = true := by
  intro l
  induction l with
  | nil => intro _; rfl
  | cons a t ih =>
    intro h
    cases t with
    | nil => rfl
    | cons b t' =>
      rw [List.pairwise_cons] at h
      have hab : charListLe a.data b.data = true :=
        h.1 b (List.mem_cons_self b t')
      simp only [ascendingBool, Bool.and_eq_true]
      exact ⟨hab, ih h.2⟩

/-- Amended claim C8: in the `done` workflow items are emitted one per line
in ascending lexicographic order of their id strings (so `"10"` precedes
`"2"`), each line consisting of the checkbox, category, id in parentheses,
trimmed title, and the location reference (`path:line` on standard output,
`[link](path#Lline)` for a file destination, as in `renderLine`); in the
`list` workflow the same lines are emitted as a permutation, in the hash
map's unspecified iteration order. -/
theorem C8_render_order (entries : List (String × TodoItem)) (isStd : Bool) :
    ascendingBool ((sortEntries entries).map Prod.fst) = true ∧
    (sortEntries entries).Perm entries ∧
    (∀ order, order.Perm entries →
      (listWorkflowLines order isStd).Perm (listWorkflowLines entries isStd)) := by
  refine ⟨?_, List.perm_insertionSort _ _, fun order h => h.map _⟩
  have hs : List.Sorted entryLE (sortEntries entries) :=
    List.sorted_insertionSort _ _
  have hp : List.Pairwise (fun a b : String => charListLe a.data b.data = true)
      ((sortEntries entries).map Prod.fst) :=
    List.Pairwise.map _ (fun _ _ hab => hab) hs
  exact ascendingBool_of_pairwise hp

/-- Witness for the amended claim C8 at a concrete aggregate and iteration
order. -/
theorem C8_render_order_witness :
    (listWorkflowLines [("1", itemB), ("0", itemA)] true).Perm
      (listWorkflowLines [("0", itemA), ("1", itemB)] true) :=
  (C8_render_order [("0", itemA), ("1", itemB)] true).2.2
    [("1", itemB), ("0", itemA)] (List.Perm.swap _ _ _)

/-! ## Claim C6: idempotent re-scan

The development below analyses the compiled rule on a line freshly
rewritten by the scanner and shows that it matches again at the same
position, now with an explicit id, so a second scan copies it unchanged. -/

/-- Well-formedness of one configured category word: nonempty, and free of
whitespace, quotes, parentheses, colon, slash and newline.  The default and
tested categories (`TODO`, `FIXME`, `HACK`, …) all satisfy this; a word
violating it would change the shape of the compiled pattern itself. -/
def goodCat (c : List Char) : Prop :=
  c ≠ [] ∧ ∀ ch ∈ c, isWs ch = false ∧ ch ≠ '"' ∧ ch ≠ '(' ∧ ch ≠ ')' ∧
    ch ≠ ':' ∧ ch ≠ '/' ∧ ch ≠ '\n'

def goodCats (cats : List (List Char)) : Prop := ∀ c ∈ cats, goodCat c

instance (c : List Char) : Decidable (goodCat c) := by
  unfold goodCat; infer_instance

instance (cats : List (List Char)) : Decidable (goodCats cats) := by
  unfold goodCats; infer_instance

theorem isWs_ne_quote {c : Char} (h : isWs c = true) : c ≠ '"' := fun hc => by
  subst hc; exact absurd h (by decide)

theorem isWs_ne_slash {c : Char} (h : isWs c = true) : c ≠ '/' := fun hc => by
  subst hc; exact absurd h (by decide)

theorem isDigit_ne {c : Char} (h : c.isDigit = true) :
    c ≠ '"' ∧ c ≠ '/' ∧ c ≠ '\n' ∧ c ≠ '\r' ∧ c ≠ '(' ∧ c ≠ ')' ∧ c ≠ ':' := by
  refine ⟨?_, ?_, ?_, ?_, ?_, ?_, ?_⟩ <;> (rintro rfl; exact absurd h (by decide))

theorem isWs_isDigit_false {c : Char} (h : c.isDigit = true) : isWs c = false := by
  by_contra hw
  have hw' : isWs c = true := by revert hw; cases isWs c <;> simp
  unfold isWs at hw'
  simp only [Bool.or_eq_true, beq_iff_eq] at hw'
  rcases hw' with ((((rfl | rfl) | rfl) | rfl) | rfl) | rfl <;>
    exact absurd h (by decide)

theorem digitChar_isDigit (n : Nat) : (digitChar n).isDigit = true := by
  unfold digitChar; split <;> decide

theorem natDigitsAux_facts :
    ∀ fuel n, n < fuel →
    natDigitsAux fuel n ≠ [] ∧ ∀ c ∈ natDigitsAux fuel n, c.isDigit = true := by
  intro fuel
  induction fuel with
  | zero => intro n h; omega
  | succ f ih =>
    intro n h
    simp only [natDigitsAux]
    by_cases h10 : n < 10
    · rw [if_pos h10]
      refine ⟨by simp, ?_⟩
      intro c hc
      rw [List.mem_singleton] at hc
      rw [hc]; exact digitChar_isDigit n
    · rw [if_neg h10]
      have hdiv : n / 10 < n := Nat.div_lt_self (by omega) (by omega)
      obtain ⟨h1, h2⟩ := ih (n / 10) (by omega)
      refine ⟨by simp [h1], ?_⟩
      intro c hc
      rcases List.mem_append.mp hc with hc1 | hc1
      · exact h2 c hc1
      · rw [List.mem_singleton] at hc1
        rw [hc1]; exact digitChar_isDigit _

theorem natDigits_ne_nil (n : Nat) : natDigits n ≠ [] :=
  (natDigitsAux_facts _ _ (by omega)).1

theorem natDigits_isDigit (n : Nat) : ∀ c ∈ natDigits n, c.isDigit = true :=
  (natDigitsAux_facts _ _ (by omega)).2

theorem findSome?_inv_mem {α β : Type} {l : List α} {f : α → Option β} {v : β}
    (h : l.findSome? f = some v) : ∃ a ∈ l, f a = some v := by
  induction l with
  | nil => simp [List.findSome?] at h
  | cons a t ih =>
    rw [findSome?_cons_eq] at h
    cases hf : f a with
    | some w =>
      rw [hf] at h
      exact ⟨a, List.mem_cons_self a t, by rw [hf]; exact h⟩
    | none =>
      rw [hf] at h
      obtain ⟨b, hb, hfb⟩ := ih h
      exact ⟨b, List.mem_cons_of_mem _ hb, hfb⟩

theorem findSome?_eq_of_all_or {α β : Type} {l : List α} {f : α → Option β}
    {v : β} (hall : ∀ b ∈ l, f b = none ∨ f b = some v)
    (hex : ∃ a ∈ l, f a = some v) : l.findSome? f = some v := by
  induction l with
  | nil => obtain ⟨a, ha, _⟩ := hex; simp at ha
  | cons a t ih =>
    rw [findSome?_cons_eq]
    rcases hall a (List.mem_cons_self a t) with hn | hs
    · rw [hn]
      apply ih fun b hb => hall b (List.mem_cons_of_mem _ hb)
      obtain ⟨b, hb, hfb⟩ := hex
      rcases List.mem_cons.mp hb with rfl | hb'
      · rw [hn] at hfb; exact absurd hfb (by simp)
      · exact ⟨b, hb', hfb⟩
    · rw [hs]

theorem mem_take_of_takeWhile {α : Type} {p : α → Bool} :
    ∀ {l : List α} {k : Nat}, k ≤ (l.takeWhile p).length →
    ∀ c ∈ l.take k, p c = true := by
  intro l
  induction l with
  | nil => intro k h c hc; simp at hc
  | cons a t ih =>
    intro k h c hc
    cases k with
    | zero => simp at hc
    | succ k' =>
      by_cases hp : p a
      · rw [List.takeWhile_cons_of_pos hp] at h
        simp only [List.length_cons] at h
        simp only [List.take_succ_cons, List.mem_cons] at hc
        rcases hc with rfl | hc
        · exact hp
        · exact ih (by omega) c hc
      · rw [List.takeWhile_cons_of_neg hp] at h
        simp at h

theorem matchIdColonTitle_none_inv {cs t : List Char}
    (h : matchIdColonTitle cs = some (none, t)) :
    ∃ w2, cs = ':' :: (w2 ++ t) ∧ (∀ c ∈ w2, isWs c = true) ∧
      (∀ c, t.head? = some c → isWs c = false) := by
  rw [matchIdColonTitle.eq_def] at h
  split at h
  · split at h
    · simp at h
    · split at h
      · simp at h
      · simp at h
  · rename_i rest3
    simp only [Option.some.injEq, Prod.mk.injEq] at h
    obtain ⟨-, ht⟩ := h
    refine ⟨rest3.takeWhile isWs, ?_, ?_, ?_⟩
    · rw [← ht]
      rw [← List.takeWhile_append_dropWhile (p := isWs) (l := rest3)]
      simp
    · intro c hc
      have hall := List.all_takeWhile (l := rest3) (p := isWs)
      exact List.all_eq_true.mp hall c hc
    · intro c hc
      rw [← ht] at hc
      have hd := List.head?_dropWhile_not isWs rest3
      rw [hc] at hd
      exact hd
  · simp at h

theorem matchCatAt_inv {cats : List (List Char)} {rest2 cat t : List Char}
    {id : Option (List Char)}
    (h : matchCatAt cats rest2 = some (cat, id, t)) :
    cat ∈ cats ∧ rest2 = cat ++ rest2.drop cat.length ∧
      matchIdColonTitle (rest2.drop cat.length) = some (id, t) := by
  unfold matchCatAt at h
  obtain ⟨c, hc, hfc⟩ := findSome?_inv_mem h
  by_cases hpre : c.isPrefixOf rest2
  · rw [if_pos hpre] at hfc
    simp only [Option.map_eq_some'] at hfc
    obtain ⟨r, hr, heq⟩ := hfc
    obtain ⟨hcat, hid, ht⟩ : c = cat ∧ r.1 = id ∧ r.2 = t := by
      simpa [Prod.ext_iff] using heq
    subst hcat
    obtain ⟨s, hs⟩ := List.isPrefixOf_iff_prefix.mp hpre
    have hdrop : rest2.drop c.length = s := by rw [← hs, List.drop_left]
    refine ⟨hc, ?_, ?_⟩
    · rw [hdrop, hs]
    · simp only [hdrop] at hr ⊢
      rw [hr, ← hid, ← ht]
  · rw [if_neg hpre] at hfc
    simp at hfc

theorem matchTail_some_inv {cats : List (List Char)} {cs cat t : List Char}
    {id : Option (List Char)}
    (h : matchTail cats cs = some (cat, id, t)) :
    ∃ w1 rest2, cs = '/' :: '/' :: (w1 ++ rest2) ∧
      (∀ c ∈ w1, isWs c = true) ∧ cat ∈ cats ∧
      rest2 = cat ++ rest2.drop cat.length ∧
      matchIdColonTitle (rest2.drop cat.length) = some (id, t) := by
  rw [matchTail.eq_def] at h
  split at h
  · rename_i rest
    simp only [matchAfterSlashes] at h
    obtain ⟨k, hk, hfk, -⟩ := findSome?_revRange_inv h
    obtain ⟨hcat, hdec, hmid⟩ := matchCatAt_inv hfk
    refine ⟨rest.take k, rest.drop k, ?_, ?_, hcat, hdec, hmid⟩
    · rw [List.take_append_drop]
    · exact mem_take_of_takeWhile (by omega)
  · simp at h

theorem matchLine_some_inv {cats : List (List Char)} {line : List Char}
    {caps : Caps} (h : matchLine cats line = some caps) :
    caps.before.length ≤ line.length ∧
    caps.before = line.take caps.before.length ∧
    countQuotes caps.before % 2 = 0 ∧
    matchTail cats (line.drop caps.before.length) =
      some (caps.category, caps.id, caps.title) ∧
    (∀ q, caps.before.length < q → q ≤ line.length →
      countQuotes (line.take q) % 2 = 0 → matchTail cats (line.drop q) = none) := by
  unfold matchLine at h
  obtain ⟨p, hp, hfp, hmax⟩ := findSome?_revRange_inv h
  by_cases hq : countQuotes (line.take p) % 2 = 0
  swap
  · rw [if_neg hq] at hfp; simp at hfp
  rw [if_pos hq] at hfp
  simp only [Option.map_eq_some'] at hfp
  obtain ⟨r, hr, heq⟩ := hfp
  subst heq
  have hlen : (line.take p).length = p := by
    rw [List.length_take]; omega
  refine ⟨?_, ?_, hq, ?_, ?_⟩
  · rw [hlen]; omega
  · rw [hlen]
  · rw [hlen, hr]
  · intro q hq1 hq2 hq3
    rw [hlen] at hq1
    have hfq := hmax q hq1 (by omega)
    rw [if_pos hq3] at hfq
    exact Option.map_eq_none'.mp hfq

/-- The full decomposition of a line matched with no explicit id: the line
splits into the (even-quoted) before capture, the comment marker, optional
whitespace, the category word, the colon, optional whitespace, and the
title; no admissible position to the right of the match also matches. -/
theorem matchLine_decomp {cats : List (List Char)} {line : List Char}
    {caps : Caps} (h : matchLine cats line = some caps) (hid : caps.id = none) :
    ∃ w1 w2,
      line = caps.before ++ '/' :: '/' ::
        (w1 ++ (caps.category ++ ':' :: (w2 ++ caps.title))) ∧
      (∀ c ∈ w1, isWs c = true) ∧ (∀ c ∈ w2, isWs c = true) ∧
      caps.category ∈ cats ∧
      (∀ c, caps.title.head? = some c → isWs c = false) ∧
      countQuotes caps.before % 2 = 0 ∧
      (∀ q, caps.before.length < q → q ≤ line.length →
        countQuotes (line.take q) % 2 = 0 → matchTail cats (line.drop q) = none) := by
  obtain ⟨hlen, hb, hq, htail, hmax⟩ := matchLine_some_inv h
  rw [hid] at htail
  obtain ⟨w1, rest2, hcs, hw1, hcat, hdec, hmid⟩ := matchTail_some_inv htail
  obtain ⟨w2, hcolon, hw2, hth⟩ := matchIdColonTitle_none_inv hmid
  refine ⟨w1, w2, ?_, hw1, hw2, hcat, hth, hq, hmax⟩
  have hr2 : rest2 = caps.category ++ ':' :: (w2 ++ caps.title) := by
    conv_lhs => rw [hdec, hcolon]
  calc line = line.take caps.before.length ++ line.drop caps.before.length :=
        (List.take_append_drop ..).symm
    _ = caps.before ++ '/' :: '/' :: (w1 ++ rest2) := by rw [← hb, hcs]
    _ = _ := by rw [hr2]

theorem drop_append_len {α : Type} (a b : List α) (i : Nat) :
    (a ++ b).drop (a.length + i) = b.drop i := by
  induction a with
  | nil => simp
  | cons x xs ih => simp [List.cons_append, Nat.succ_add, ih]

theorem take_append_len {α : Type} (a b : List α) (i : Nat) :
    (a ++ b).take (a.length + i) = a ++ b.take i := by
  induction a with
  | nil => simp
  | cons x xs ih => simp [List.cons_append, Nat.succ_add, ih]

theorem matchIdColonTitle_none_of_head {d : Char} {r : List Char}
    (h1 : d ≠ '(') (h2 : d ≠ ':') : matchIdColonTitle (d :: r) = none := by
  rw [matchIdColonTitle.eq_def]
  split
  · rename_i rest heq
    injection heq with he1 he2
    exact absurd he1 h1
  · rename_i rest3 heq
    injection heq with he1 he2
    exact absurd he1 h2
  · rfl

theorem matchTail_eq_none {cats : List (List Char)} {cs : List Char}
    (h : ∀ rest, cs ≠ '/' :: '/' :: rest) : matchTail cats cs = none := by
  rw [matchTail.eq_def]
  split
  · rename_i rest
    exact absurd rfl (h rest)
  · rfl

theorem matchIdColonTitle_eval {ids t : List Char} (hne : ids ≠ [])
    (hdig : ∀ c ∈ ids, c.isDigit = true)
    (hth : ∀ c, t.head? = some c → isWs c = false) :
    matchIdColonTitle ('(' :: (ids ++ ')' :: ':' :: ' ' :: t)) =
      some (some ids, t) := by
  have htake : (ids ++ ')' :: ':' :: ' ' :: t).takeWhile Char.isDigit = ids := by
    rw [List.takeWhile_append_of_pos hdig, List.takeWhile_cons_of_neg (by decide)]
    simp
  have hdw : t.dropWhile isWs = t := by
    cases ht : t with
    | nil => rfl
    | cons c t' =>
      have hc : isWs c = false := hth c (by rw [ht]; rfl)
      rw [List.dropWhile_cons_of_neg (by simp [hc])]
  simp only [matchIdColonTitle, htake]
  rw [if_neg (by simp [hne]), List.drop_left]
  simp only [List.dropWhile_cons_of_pos (show isWs ' ' = true by decide), hdw]

theorem matchCatAt_eval {cats : List (List Char)} {cat ids t : List Char}
    (hg : goodCats cats) (hmem : cat ∈ cats) (hne : ids ≠ [])
    (hdig : ∀ c ∈ ids, c.isDigit = true)
    (hth : ∀ c, t.head? = some c → isWs c = false) :
    matchCatAt cats (cat ++ '(' :: (ids ++ ')' :: ':' :: ' ' :: t)) =
      some (cat, some ids, t) := by
  unfold matchCatAt
  apply findSome?_eq_of_all_or
  · intro b hb
    by_cases hbc : b = cat
    · subst hbc
      right
      rw [if_pos (List.isPrefixOf_iff_prefix.mpr (List.prefix_append ..)),
        List.drop_left, matchIdColonTitle_eval hne hdig hth]
      rfl
    · by_cases hpre : b.isPrefixOf (cat ++ '(' :: (ids ++ ')' :: ':' :: ' ' :: t))
      · left
        rw [if_pos hpre]
        have hp : b <+: cat ++ '(' :: (ids ++ ')' :: ':' :: ' ' :: t) :=
          List.isPrefixOf_iff_prefix.mp hpre
        by_cases hlen : b.length ≤ cat.length
        · have hbcat : b <+: cat :=
            List.prefix_of_prefix_length_le hp (List.prefix_append ..) hlen
          obtain ⟨s, hs⟩ := hbcat
          have hsne : s ≠ [] := by
            intro h0
            rw [h0, List.append_nil] at hs
            exact hbc hs
          have hdrop : (cat ++ '(' :: (ids ++ ')' :: ':' :: ' ' :: t)).drop b.length =
              s ++ '(' :: (ids ++ ')' :: ':' :: ' ' :: t) := by
            rw [← hs, List.append_assoc, List.drop_left]
          rw [hdrop]
          cases s with
          | nil => exact absurd rfl hsne
          | cons c0 s' =>
            have hc0 : c0 ∈ cat := by
              rw [← hs]
              exact List.mem_append.mpr (Or.inr (List.mem_cons_self ..))
            obtain ⟨-, -, hnp, -, hnc, -, -⟩ := (hg cat hmem).2 c0 hc0
            rw [List.cons_append, matchIdColonTitle_none_of_head hnp hnc]
            rfl
        · exfalso
          have hcp : cat ++ ['('] <+: b := by
            apply List.prefix_of_prefix_length_le ?_ hp ?_
            · rw [show cat ++ '(' :: (ids ++ ')' :: ':' :: ' ' :: t) =
                (cat ++ ['(']) ++ (ids ++ ')' :: ':' :: ' ' :: t) by simp]
              exact List.prefix_append ..
            · simp only [List.length_append, List.length_singleton]
              omega
          have hparen : '(' ∈ b :=
            hcp.subset (List.mem_append.mpr (Or.inr (by simp)))
          obtain ⟨-, -, hnp, -, -, -, -⟩ := (hg b hb).2 '(' hparen
          exact hnp rfl
      · left
        rw [if_neg hpre]
  · refine ⟨cat, hmem, ?_⟩
    rw [if_pos (List.isPrefixOf_iff_prefix.mpr (List.prefix_append ..)),
      List.drop_left, matchIdColonTitle_eval hne hdig hth]
    rfl

theorem matchAfterSlashes_eval {cats : List (List Char)} {cat ids t : List Char}
    (hg : goodCats cats) (hmem : cat ∈ cats) (hne : ids ≠ [])
    (hdig : ∀ c ∈ ids, c.isDigit = true)
    (hth : ∀ c, t.head? = some c → isWs c = false) :
    matchAfterSlashes cats (' ' :: (cat ++ '(' :: (ids ++ ')' :: ':' :: ' ' :: t))) =
      some (cat, some ids, t) := by
  obtain ⟨hcne, hch⟩ := hg cat hmem
  have htw : ((' ' : Char) :: (cat ++ '(' :: (ids ++ ')' :: ':' :: ' ' :: t))).takeWhile isWs
      = [' '] := by
    rw [List.takeWhile_cons_of_pos (by decide)]
    cases hc : cat with
    | nil => exact absurd hc hcne
    | cons c0 cs' =>
      have h0 : isWs c0 = false := (hch c0 (by rw [hc]; exact List.mem_cons_self ..)).1
      rw [List.cons_append, List.takeWhile_cons_of_neg (by simp [h0])]
  simp only [matchAfterSlashes, htw, List.length_singleton]
  rw [revRange_succ, findSome?_cons_eq]
  rw [show ((' ' : Char) :: (cat ++ '(' :: (ids ++ ')' :: ':' :: ' ' :: t))).drop 1 =
    cat ++ '(' :: (ids ++ ')' :: ':' :: ' ' :: t) from rfl]
  rw [matchCatAt_eval hg hmem hne hdig hth]

/-- The text inserted by the rewrite template
`"$before// $category({id}): $title"` (main.rs:180-183), between the
preserved `before` capture and the preserved title. -/
def rewriteMarker (C ids : List Char) : List Char :=
  '/' :: '/' :: ' ' :: (C ++ '(' :: (ids ++ [')', ':', ' ']))

/-- The text the original match consumed between the `before` capture and
the title: `//`, optional whitespace, the category, the colon, optional
whitespace. -/
def midMarker (w1 C w2 : List Char) : List Char :=
  '/' :: '/' :: (w1 ++ (C ++ ':' :: w2))

theorem countQuotes_append (a b : List Char) :
    countQuotes (a ++ b) = countQuotes a + countQuotes b :=
  List.count_append ..

theorem rewriteMarker_len (C ids : List Char) :
    (rewriteMarker C ids).length = C.length + ids.length + 7 := by
  simp only [rewriteMarker, List.length_cons, List.length_append, List.length_nil]
  omega

theorem mem_rewriteMarker_ne_quote {C ids : List Char} (hC : goodCat C)
    (hdig : ∀ c ∈ ids, c.isDigit = true) :
    ∀ x ∈ rewriteMarker C ids, x ≠ '"' := by
  unfold rewriteMarker
  intro x hx
  rcases List.mem_cons.mp hx with rfl | hx
  · decide
  rcases List.mem_cons.mp hx with rfl | hx
  · decide
  rcases List.mem_cons.mp hx with rfl | hx
  · decide
  rcases List.mem_append.mp hx with hx | hx
  · exact (hC.2 _ hx).2.1
  rcases List.mem_cons.mp hx with rfl | hx
  · decide
  rcases List.mem_append.mp hx with hx | hx
  · exact (isDigit_ne (hdig _ hx)).1
  rcases List.mem_cons.mp hx with rfl | hx
  · decide
  rcases List.mem_cons.mp hx with rfl | hx
  · decide
  rcases List.mem_cons.mp hx with rfl | hx
  · decide
  simp at hx

theorem rewriteMarker_quotes {C ids : List Char} (hC : goodCat C)
    (hdig : ∀ c ∈ ids, c.isDigit = true) :
    countQuotes (rewriteMarker C ids) = 0 := by
  unfold countQuotes
  rw [List.count_eq_zero]
  intro hm
  exact mem_rewriteMarker_ne_quote hC hdig _ hm rfl

theorem midMarker_quotes {w1 C w2 : List Char} (hC : goodCat C)
    (hw1 : ∀ c ∈ w1, isWs c = true) (hw2 : ∀ c ∈ w2, isWs c = true) :
    countQuotes (midMarker w1 C w2) = 0 := by
  unfold countQuotes
  rw [List.count_eq_zero]
  intro hm
  unfold midMarker at hm
  rcases List.mem_cons.mp hm with h | hm
  · exact absurd h (by decide)
  rcases List.mem_cons.mp hm with h | hm
  · exact absurd h (by decide)
  rcases List.mem_append.mp hm with hm1 | hm
  · exact isWs_ne_quote (hw1 _ hm1) rfl
  rcases List.mem_append.mp hm with hm1 | hm
  · exact (hC.2 _ hm1).2.1 rfl
  rcases List.mem_cons.mp hm with h | hm
  · exact absurd h (by decide)
  exact isWs_ne_quote (hw2 _ hm) rfl

theorem slash_not_mem_markerTail {C ids : List Char} (hC : goodCat C)
    (hdig : ∀ c ∈ ids, c.isDigit = true) :
    '/' ∉ (' ' :: (C ++ '(' :: (ids ++ [')', ':', ' ']))) := by
  intro hm
  rcases List.mem_cons.mp hm with h | hm
  · exact absurd h (by decide)
  rcases List.mem_append.mp hm with hm1 | hm
  · exact (hC.2 _ hm1).2.2.2.2.2.1 rfl
  rcases List.mem_cons.mp hm with h | hm
  · exact absurd h (by decide)
  rcases List.mem_append.mp hm with hm1 | hm
  · exact (isDigit_ne (hdig _ hm1)).2.1 rfl
  rcases List.mem_cons.mp hm with h | hm
  · exact absurd h (by decide)
  rcases List.mem_cons.mp hm with h | hm
  · exact absurd h (by decide)
  rcases List.mem_cons.mp hm with h | hm
  · exact absurd h (by decide)
  simp at hm

/-- No position strictly inside the inserted marker starts a `//` match:
every admissible tail there fails the comment-marker literal. -/
theorem rewriteMarker_tail_none {cats : List (List Char)} {C ids T : List Char}
    (hC : goodCat C) (hdig : ∀ c ∈ ids, c.isDigit = true) (d : Nat)
    (hd1 : 1 ≤ d) (hd2 : d < (rewriteMarker C ids).length) :
    matchTail cats ((rewriteMarker C ids ++ T).drop d) = none := by
  have hsh : rewriteMarker C ids ++ T =
      '/' :: '/' :: ((' ' :: (C ++ '(' :: (ids ++ [')', ':', ' ']))) ++ T) := by
    simp [rewriteMarker]
  have hslash := slash_not_mem_markerTail hC hdig
  rw [rewriteMarker_len] at hd2
  match d, hd1 with
  | 1, _ =>
    rw [hsh]
    apply matchTail_eq_none
    intro rest heq
    rw [List.drop_one, List.tail_cons] at heq
    rw [List.cons_append] at heq
    injection heq with h1 h2
    injection h2 with h3 h4
    exact absurd h3 (by decide)
  | (e + 2), _ =>
    rw [hsh]
    have hdrop : ('/' :: '/' ::
        ((' ' :: (C ++ '(' :: (ids ++ [')', ':', ' ']))) ++ T)).drop (e + 2) =
        ((' ' :: (C ++ '(' :: (ids ++ [')', ':', ' ']))) ++ T).drop e := by
      rfl
    rw [hdrop]
    have he : e < (' ' :: (C ++ '(' :: (ids ++ [')', ':', ' ']))).length := by
      simp only [List.length_cons, List.length_append, List.length_nil] at *
      omega
    rw [List.drop_append_of_le_length (by omega)]
    cases hdr : (' ' :: (C ++ '(' :: (ids ++ [')', ':', ' ']))).drop e with
    | nil =>
      exfalso
      have := congrArg List.length hdr
      simp only [List.length_drop, List.length_nil] at this
      omega
    | cons c0 rest' =>
      have hc0 : c0 ∈ (' ' :: (C ++ '(' :: (ids ++ [')', ':', ' ']))) :=
        List.mem_of_mem_drop (by rw [hdr]; exact List.mem_cons_self ..)
      apply matchTail_eq_none
      intro rest heq
      rw [List.cons_append] at heq
      injection heq with h1 h2
      exact hslash (h1 ▸ hc0)

/-- The heart of claim C6: a line matched with no explicit id, once
rewritten by the scanner's template, matches again at the same position
with the freshly inserted id and otherwise identical captures. -/
theorem matchLine_rewrite {cats : List (List Char)} {line B C T : List Char}
    (n : Nat) (hg : goodCats cats)
    (h : matchLine cats line = some ⟨B, C, none, T⟩) :
    matchLine cats (B ++ (rewriteMarker C (natDigits n) ++ T)) =
      some ⟨B, C, some (natDigits n), T⟩ := by
  obtain ⟨w1, w2, hline0, hw1, hw2, hcmem, hth, hqb, hmax⟩ := matchLine_decomp h rfl
  dsimp only at hline0 hqb hmax
  have hidne := natDigits_ne_nil n
  have hiddig := natDigits_isDigit n
  have hCgood := hg C hcmem
  have hline : line = B ++ (midMarker w1 C w2 ++ T) := by
    rw [hline0]; simp [midMarker]
  have hlenLine : line.length =
      B.length + ((midMarker w1 C w2).length + T.length) := by
    rw [hline]; simp
  have hmidlen : 3 ≤ (midMarker w1 C w2).length := by
    simp only [midMarker, List.length_cons, List.length_append]
    omega
  unfold matchLine
  apply findSome?_revRange_of_max (p := B.length)
  · simp only [List.length_append]; omega
  · simp only [List.take_left, List.drop_left]
    rw [if_pos hqb]
    have hsh : rewriteMarker C (natDigits n) ++ T =
        '/' :: '/' :: (' ' :: (C ++ '(' :: (natDigits n ++ ')' :: ':' :: ' ' :: T))) := by
      simp [rewriteMarker]
    rw [hsh]
    rw [show matchTail cats
        ('/' :: '/' :: (' ' :: (C ++ '(' :: (natDigits n ++ ')' :: ':' :: ' ' :: T)))) =
      matchAfterSlashes cats
        (' ' :: (C ++ '(' :: (natDigits n ++ ')' :: ':' :: ' ' :: T))) from rfl]
    rw [matchAfterSlashes_eval hg hcmem hidne hiddig hth]
    rfl
  · intro q hq1 hq2
    obtain ⟨d, rfl⟩ : ∃ d, q = B.length + d := ⟨q - B.length, by omega⟩
    have hdpos : 1 ≤ d := by omega
    simp only [drop_append_len, take_append_len]
    by_cases hcase : d < (rewriteMarker C (natDigits n)).length
    · rw [rewriteMarker_tail_none hCgood hiddig d hdpos hcase]
      split <;> rfl
    · push_neg at hcase
      obtain ⟨k, rfl⟩ : ∃ k, d = (rewriteMarker C (natDigits n)).length + k :=
        ⟨d - (rewriteMarker C (natDigits n)).length, by omega⟩
      simp only [drop_append_len, take_append_len]
      have hk : k ≤ T.length := by
        simp only [List.length_append] at hq2
        omega
      by_cases hpar : countQuotes
          (B ++ (rewriteMarker C (natDigits n) ++ T.take k)) % 2 = 0
      case neg => rw [if_neg hpar]
      rw [if_pos hpar]
      have hq0par : countQuotes
          (line.take (B.length + ((midMarker w1 C w2).length + k))) % 2 = 0 := by
        rw [hline, take_append_len, take_append_len]
        have e1 := countQuotes_append B (rewriteMarker C (natDigits n) ++ T.take k)
        have e2 := countQuotes_append (rewriteMarker C (natDigits n)) (T.take k)
        have e3 := countQuotes_append B (midMarker w1 C w2 ++ T.take k)
        have e4 := countQuotes_append (midMarker w1 C w2) (T.take k)
        have e5 := rewriteMarker_quotes hCgood hiddig
        have e6 := midMarker_quotes hCgood hw1 hw2
        omega
      have hmt := hmax (B.length + ((midMarker w1 C w2).length + k))
        (by omega) (by rw [hlenLine]; omega) hq0par
      rw [hline, drop_append_len, drop_append_len] at hmt
      rw [hmt]
      rfl

/-! ### Lifting the per-line result to whole files -/

theorem processLine_eq_none {cats : List (List Char)} {path : String}
    {i c : Nat} {line : List Char} (hm : matchLine cats line = none) :
    processLine cats path i c line = (line, c, none) := by
  unfold processLine
  rw [hm]

theorem processLine_eq_some_id {cats : List (List Char)} {path : String}
    {i c : Nat} {line : List Char} {caps : Caps} {ids : List Char}
    (hm : matchLine cats line = some caps) (hid : caps.id = some ids) :
    processLine cats path i c line =
      (line, c, some (⟨ids⟩,
        { title := ⟨caps.title⟩, category := ⟨caps.category⟩, path := path,
          line := i + 1, done := false })) := by
  unfold processLine
  rw [hm]
  try dsimp only
  rw [hid]

theorem processLine_eq_no_id {cats : List (List Char)} {path : String}
    {i c : Nat} {line : List Char} {caps : Caps}
    (hm : matchLine cats line = some caps) (hid : caps.id = none) :
    processLine cats path i c line =
      (caps.before ++ (rewriteMarker caps.category (natDigits c) ++ caps.title),
       c + 1,
       some (⟨natDigits c⟩,
        { title := ⟨caps.title⟩, category := ⟨caps.category⟩, path := path,
          line := i + 1, done := false })) := by
  unfold processLine
  rw [hm]
  try dsimp only
  rw [hid]
  try dsimp only
  rw [show caps.before ++ '/' :: '/' :: ' ' ::
      (caps.category ++ '(' :: (natDigits c ++ ')' :: ':' :: ' ' :: caps.title)) =
    caps.before ++ (rewriteMarker caps.category (natDigits c) ++ caps.title) from
    by simp [rewriteMarker]]

/-- One line is stable under a second scan: its rewritten form is copied
unchanged and the counter is untouched. -/
theorem processLine_idem {cats : List (List Char)} (path : String)
    (hg : goodCats cats) (i i2 c c2 : Nat) (line : List Char) :
    (processLine cats path i2 c2 (processLine cats path i c line).1).1 =
      (processLine cats path i c line).1 ∧
    (processLine cats path i2 c2 (processLine cats path i c line).1).2.1 = c2 := by
  cases hm : matchLine cats line with
  | none =>
    rw [processLine_eq_none hm]
    dsimp only
    rw [processLine_eq_none hm]
    exact ⟨rfl, rfl⟩
  | some caps =>
    obtain ⟨B, C, idf, T⟩ := caps
    cases hid : idf with
    | some ids =>
      subst hid
      rw [processLine_eq_some_id hm rfl]
      dsimp only
      rw [processLine_eq_some_id hm rfl]
      exact ⟨rfl, rfl⟩
    | none =>
      subst hid
      rw [processLine_eq_no_id hm rfl]
      dsimp only
      have hm2 := matchLine_rewrite c hg hm
      rw [processLine_eq_some_id hm2 rfl]
      exact ⟨rfl, rfl⟩

theorem mem_rewriteMarker_ne_newline {C ids : List Char} (hC : goodCat C)
    (hdig : ∀ c ∈ ids, c.isDigit = true) :
    ∀ x ∈ rewriteMarker C ids, x ≠ '\n' := by
  unfold rewriteMarker
  intro x hx
  rcases List.mem_cons.mp hx with rfl | hx
  · decide
  rcases List.mem_cons.mp hx with rfl | hx
  · decide
  rcases List.mem_cons.mp hx with rfl | hx
  · decide
  rcases List.mem_append.mp hx with hx | hx
  · exact (hC.2 _ hx).2.2.2.2.2.2
  rcases List.mem_cons.mp hx with rfl | hx
  · decide
  rcases List.mem_append.mp hx with hx | hx
  · exact (isDigit_ne (hdig _ hx)).2.2.1
  rcases List.mem_cons.mp hx with rfl | hx
  · decide
  rcases List.mem_cons.mp hx with rfl | hx
  · decide
  rcases List.mem_cons.mp hx with rfl | hx
  · decide
  simp at hx

theorem rewriteMarker_getLast (C ids : List Char) :
    (rewriteMarker C ids).getLast? = some ' ' := by
  have hsh : rewriteMarker C ids =
      ('/' :: '/' :: ' ' :: (C ++ '(' :: ids)) ++ [')', ':', ' '] := by
    simp [rewriteMarker]
  rw [hsh, List.getLast?_append]
  rfl

/-- A scanned output line contains no newline and does not end in a
carriage return, provided the input line is such. -/
theorem processLine_out_props {cats : List (List Char)} {path : String}
    {i c : Nat} {line : List Char} (hg : goodCats cats)
    (hnl : '\n' ∉ line) (hcr : line.getLast? ≠ some '\r') :
    '\n' ∉ (processLine cats path i c line).1 ∧
    (processLine cats path i c line).1.getLast? ≠ some '\r' := by
  cases hm : matchLine cats line with
  | none =>
    rw [processLine_eq_none hm]
    exact ⟨hnl, hcr⟩
  | some caps =>
    cases hid : caps.id with
    | some ids =>
      rw [processLine_eq_some_id hm hid]
      exact ⟨hnl, hcr⟩
    | none =>
      obtain ⟨w1, w2, hline0, hw1, hw2, hcmem, hth, -, -⟩ := matchLine_decomp hm hid
      try dsimp only at hline0
      have hCgood := hg _ hcmem
      have hiddig := natDigits_isDigit c
      rw [processLine_eq_no_id hm hid]
      try dsimp only
      constructor
      · intro hmem
        rcases List.mem_append.mp hmem with hmem | hmem
        · exact hnl (by rw [hline0]; exact List.mem_append.mpr (Or.inl hmem))
        rcases List.mem_append.mp hmem with hmem | hmem
        · exact mem_rewriteMarker_ne_newline hCgood hiddig _ hmem rfl
        · apply hnl
          rw [hline0]
          refine List.mem_append.mpr (Or.inr ?_)
          simp only [List.mem_cons, List.mem_append]
          exact Or.inr (Or.inr (Or.inr (Or.inr (Or.inr (Or.inr hmem)))))
      · by_cases hT : caps.title = []
        case pos =>
          rw [hT, List.append_nil, List.getLast?_append, rewriteMarker_getLast]
          simp
        case neg =>
          have hTlast : ∃ x, caps.title.getLast? = some x := by
            cases hx : caps.title.getLast? with
            | none => exact absurd (List.getLast?_eq_none_iff.mp hx) hT
            | some x => exact ⟨x, rfl⟩
          obtain ⟨x, hx⟩ := hTlast
          have hout : (caps.before ++
              (rewriteMarker caps.category (natDigits c) ++ caps.title)).getLast? =
              some x := by
            rw [List.getLast?_append, List.getLast?_append, hx]
            rfl
          have hlinex : line.getLast? = some x := by
            rw [hline0]
            have hT2 : (w1 ++ (caps.category ++ ':' :: (w2 ++ caps.title))).getLast? =
                some x := by
              rw [List.getLast?_append, List.getLast?_append, List.getLast?_cons,
                List.getLast?_append, hx]
              rfl
            rw [List.getLast?_append]
            rw [show ('/' :: '/' ::
                (w1 ++ (caps.category ++ ':' :: (w2 ++ caps.title)))).getLast? =
              (w1 ++ (caps.category ++ ':' :: (w2 ++ caps.title))).getLast?.getD '/' from
              by rw [List.getLast?_cons_cons, List.getLast?_cons]]
            rw [hT2]
            rfl
          rw [hout]
          rw [hlinex] at hcr
          exact hcr

theorem scanLinesGo_out_props {cats : List (List Char)} (path : String)
    (hg : goodCats cats) :
    ∀ (ls : List (List Char)) (i c : Nat),
    (∀ l ∈ ls, '\n' ∉ l) → (∀ l ∈ ls, l.getLast? ≠ some '\r') →
    ∀ l ∈ (scanLinesGo cats path ls i c).1, '\n' ∉ l ∧ l.getLast? ≠ some '\r' := by
  intro ls
  induction ls with
  | nil => intro i c _ _ l hl; simp [scanLinesGo] at hl
  | cons l0 t ih =>
    intro i c h1 h2 l hl
    simp only [scanLinesGo] at hl
    rcases List.mem_cons.mp hl with rfl | hl
    · exact processLine_out_props hg (h1 l0 (List.mem_cons_self ..))
        (h2 l0 (List.mem_cons_self ..))
    · exact ih _ _ (fun x hx => h1 x (List.mem_cons_of_mem _ hx))
        (fun x hx => h2 x (List.mem_cons_of_mem _ hx)) l hl

theorem rustLinesAux_no_newline :
    ∀ (fuel : Nat) (s : List Char), ∀ l ∈ rustLinesAux fuel s, '\n' ∉ l := by
  intro fuel
  induction fuel with
  | zero => intro s l hl; simp [rustLinesAux] at hl
  | succ f ih =>
    intro s l hl
    simp only [rustLinesAux] at hl
    by_cases hs : s = []
    · rw [if_pos hs] at hl; simp at hl
    rw [if_neg hs] at hl
    have hseg : ∀ x ∈ s.takeWhile fun c => !(c == '\n'), x ≠ '\n' := by
      intro x hx he
      have hall := List.all_takeWhile (l := s) (p := fun c => !(c == '\n'))
      have := List.all_eq_true.mp hall x hx
      rw [he] at this
      simp at this
    by_cases hrest : s.drop (s.takeWhile fun c => !(c == '\n')).length = []
    · rw [if_pos hrest, List.mem_singleton] at hl
      subst hl
      intro hmem
      exact hseg _ hmem rfl
    · rw [if_neg hrest] at hl
      rcases List.mem_cons.mp hl with rfl | hl
      · intro hmem
        have hmem' : '\n' ∈ s.takeWhile fun c => !(c == '\n') := by
          unfold chompCR at hmem
          split at hmem
          · exact (List.dropLast_sublist _).subset hmem
          · exact hmem
        exact hseg _ hmem' rfl
      · exact ih _ l hl

theorem rustLines_no_newline (s : List Char) :
    ∀ l ∈ rustLines s, '\n' ∉ l :=
  rustLinesAux_no_newline _ s

theorem unlines_cons (l : List Char) (ls : List (List Char)) :
    unlines (l :: ls) = l ++ '\n' :: unlines ls := rfl

theorem rustLinesAux_unlines :
    ∀ (fuel : Nat) (ls : List (List Char)), (unlines ls).length < fuel →
    (∀ l ∈ ls, '\n' ∉ l) → (∀ l ∈ ls, l.getLast? ≠ some '\r') →
    rustLinesAux fuel (unlines ls) = ls := by
  intro fuel
  induction fuel with
  | zero => intro ls h; omega
  | succ f ih =>
    intro ls hlen h1 h2
    cases ls with
    | nil => rfl
    | cons l ls' =>
      rw [unlines_cons]
      have hl1 : '\n' ∉ l := h1 l (List.mem_cons_self ..)
      have hne : l ++ '\n' :: unlines ls' ≠ [] := by simp
      have htw : (l ++ '\n' :: unlines ls').takeWhile (fun c => !(c == '\n')) = l := by
        rw [List.takeWhile_append_of_pos
          (fun a ha => by simp; exact fun he => hl1 (he ▸ ha))]
        rw [List.takeWhile_cons_of_neg (by simp)]
        simp
      have hrest : (l ++ '\n' :: unlines ls').drop
          ((l ++ '\n' :: unlines ls').takeWhile fun c => !(c == '\n')).length =
          '\n' :: unlines ls' := by
        rw [htw, List.drop_left]
      simp only [rustLinesAux]
      rw [if_neg hne, hrest]
      rw [if_neg (by simp)]
      have hch : chompCR ((l ++ '\n' :: unlines ls').takeWhile fun c => !(c == '\n'))
          = l := by
        rw [htw]
        unfold chompCR
        rw [if_neg (h2 l (List.mem_cons_self ..))]
      rw [hch, List.drop_one, List.tail_cons]
      congr 1
      apply ih
      · rw [unlines_cons] at hlen
        simp only [List.length_append, List.length_cons] at hlen
        omega
      · exact fun x hx => h1 x (List.mem_cons_of_mem _ hx)
      · exact fun x hx => h2 x (List.mem_cons_of_mem _ hx)

theorem rustLines_unlines {ls : List (List Char)} (h1 : ∀ l ∈ ls, '\n' ∉ l)
    (h2 : ∀ l ∈ ls, l.getLast? ≠ some '\r') : rustLines (unlines ls) = ls :=
  rustLinesAux_unlines _ ls (by omega) h1 h2

theorem scanLinesGo_idem {cats : List (List Char)} (path : String)
    (hg : goodCats cats) :
    ∀ (ls : List (List Char)) (i i2 c c2 : Nat),
    (scanLinesGo cats path ((scanLinesGo cats path ls i c).1) i2 c2).1 =
      (scanLinesGo cats path ls i c).1 ∧
    (scanLinesGo cats path ((scanLinesGo cats path ls i c).1) i2 c2).2.1 = c2 := by
  intro ls
  induction ls with
  | nil => intro i i2 c c2; exact ⟨rfl, rfl⟩
  | cons l t ih =>
    intro i i2 c c2
    obtain ⟨hp1, hp2⟩ := processLine_idem path hg i i2 c c2 l
    simp only [scanLinesGo]
    constructor
    · rw [hp1, hp2]
      rw [(ih (i + 1) (i2 + 1) (processLine cats path i c l).2.1 c2).1]
    · rw [hp2]
      exact (ih (i + 1) (i2 + 1) (processLine cats path i c l).2.1 c2).2

/-- Claim C6 is false on the code at the byte level: for a file whose line
ends in `"\r\r\n"`, `str::lines` strips one `\r` per pass, so the second
`list` invocation writes different bytes than the first — even though it
assigns no new ids.  First pass output: `"// TODO(0): a\nx\r\n"`; second
pass output: `"// TODO(0): a\nx\n"`. -/
theorem C6_counterexample :
    (scanContent catsTodoFixme "f" 5
        (scanContent catsTodoFixme "f" 0 "//TODO: a\nx\r\r\n".toList).1).1 ≠
      (scanContent catsTodoFixme "f" 0 "//TODO: a\nx\r\r\n".toList).1 ∧
    (scanContent catsTodoFixme "f" 5
        (scanContent catsTodoFixme "f" 0 "//TODO: a\nx\r\r\n".toList).1).2.1 = 5 := by
  refine ⟨by decide, by decide⟩

/-- Amended claim C6: a line matching with an explicit id is copied to the
output unchanged and allocates no new id; and after one `list` invocation
over a file none of whose lines ends in a carriage return, a second `list`
invocation assigns no new ids (its counter is returned untouched) and
rewrites the file to content identical to the first invocation's output. -/
theorem C6_idempotent_rescan (cats : List (List Char)) (path : String)
    (content : List Char) (c1 c2 i c : Nat) (line : List Char) (caps : Caps)
    (ids : List Char) (hg : goodCats cats)
    (hcr : ∀ l ∈ rustLines content, l.getLast? ≠ some '\r') :
    (matchLine cats line = some caps → caps.id = some ids →
      (processLine cats path i c line).1 = line ∧
      (processLine cats path i c line).2.1 = c) ∧
    ((scanContent cats path c2 (scanContent cats path c1 content).1).1 =
        (scanContent cats path c1 content).1 ∧
      (scanContent cats path c2 (scanContent cats path c1 content).1).2.1 = c2) := by
  constructor
  · intro hm hid
    rw [processLine_eq_some_id hm hid]
    exact ⟨rfl, rfl⟩
  · have hnl := rustLines_no_newline content
    have hprops := scanLinesGo_out_props path hg (rustLines content)
      0 c1 hnl hcr
    have hno : ∀ l ∈ (scanLinesGo cats path (rustLines content) 0 c1).1,
        '\n' ∉ l := fun l hl => (hprops l hl).1
    have hcr2 : ∀ l ∈ (scanLinesGo cats path (rustLines content) 0 c1).1,
        l.getLast? ≠ some '\r' := fun l hl => (hprops l hl).2
    unfold scanContent
    dsimp only
    rw [rustLines_unlines hno hcr2]
    obtain ⟨h1, h2⟩ := scanLinesGo_idem path hg (rustLines content)
      0 0 c1 c2
    exact ⟨by rw [h1], h2⟩

/-- Witness for the amended claim C6 at a concrete file: the second scan of
`"//TODO: a\n"`'s rewritten content returns it unchanged with an untouched
counter, and the concrete rewritten line `"// TODO(0): a"` (which carries
an explicit id) is copied unchanged without allocating. -/
theorem C6_idempotent_rescan_witness :
    ((processLine catsTodoFixme "f" 0 3 "// TODO(0): a".toList).1 =
        "// TODO(0): a".toList ∧
      (processLine catsTodoFixme "f" 0 3 "// TODO(0): a".toList).2.1 = 3) ∧
    ((scanContent catsTodoFixme "f" 7
        (scanContent catsTodoFixme "f" 0 "//TODO: a\n".toList).1).1 =
      (scanContent catsTodoFixme "f" 0 "//TODO: a\n".toList).1 ∧
     (scanContent catsTodoFixme "f" 7
        (scanContent catsTodoFixme "f" 0 "//TODO: a\n".toList).1).2.1 = 7) :=
  ⟨(C6_idempotent_rescan catsTodoFixme "f" "//TODO: a\n".toList 0 7 0 3
      "// TODO(0): a".toList
      ⟨[], "TODO".toList, some ['0'], "a".toList⟩ ['0']
      (by decide) (by decide)).1 (by decide) (by decide),
   (C6_idempotent_rescan catsTodoFixme "f" "//TODO: a\n".toList 0 7 0 3
      "// TODO(0): a".toList
      ⟨[], "TODO".toList, some ['0'], "a".toList⟩ ['0']
      (by decide) (by decide)).2⟩

end Mrdm
